import Mathlib

/-!
Verification of the crontab-section reconciliation engine of the `cron-ext`
Meltano extension, against its natural-language specification.

The development is a shallow embedding of the Python sources:

* `cron_ext/entry.py`: the compiled regular expressions `comment_pattern`
  (`^\s*#.*$`) and `entry_pattern`
  (`(?i)^.+?'(?P<path>(?:/.*)*/(?P<name>.*)\.sh)'.*$`), both used with
  `re.fullmatch`.
* `cron_ext/extension.py`: the class `Cron` with its own `entry_pattern`
  (`(?i)^.+?'(?P<path>/?(?:.*/)(?P<name>.*)\.sh)'.*$`), the section locator
  `_index_of_match` / `_find_meltano_section_indices` (template
  `^\s*#\s*-+\s*{} MELTANO CRONTAB SECTION\s*-+\s*$`), the `entries`
  getter/setter, `_ignore_entry`, `_unique_entries`, `install`, `uninstall`.
* `cron_ext/stores/crontab.py`: the keyed section locator (template
  `^\s*#\s*-+\s*{} MELTANO CRONTAB SECTION \((?P<id>.*?)\)\s*-+\s*$`, whose
  `id` group must equal the project id), and `CrontabEntryStore.is_managed`.
* `cron_ext/stores/stdout.py` and `cron_ext/main.py`: the store capability
  flag `is_managed` and the CLI-level error handling of `uninstall`.

Store content is modelled as the list of its lines (`crontab.splitlines()`);
every operation in the source works on that list and writes it back joined
with a newline, so list-of-lines is the natural state space.  Regular
expressions are embedded by compiling each concrete pattern, by hand, into an
executable matcher that reproduces the backtracking semantics of Python's
`re.fullmatch` for that pattern (leftmost/lazy choice of the `.+?` prefix,
greedy/rightmost choice everywhere later, named-group captures).  The Python
regex classes are reproduced exactly for the ASCII range; `\s` additionally
accepts some non-ASCII Unicode whitespace in Python, which is not modelled.
Under `re.IGNORECASE`, Python matches the literal `s` also against the
character U+017F (latin small letter long s); this is reproduced.
-/

namespace CronExt

/-- Characters of the regex class `\s` (ASCII part), as used by the patterns
compiled in the sources. -/
def pySpace (c : Char) : Bool :=
  c == ' ' || c == '\t' || c == '\n' || c == '\r' || c == '\x0B' || c == '\x0C'

/-- Characters matched by the literal `s` of `\.sh` under `re.IGNORECASE`
(including U+017F, which Python's case-insensitive matching folds to `s`). -/
def sLike (c : Char) : Bool := c == 's' || c == 'S' || c == 'ſ'

/-- Characters matched by the literal `h` of `\.sh` under `re.IGNORECASE`. -/
def hLike (c : Char) : Bool := c == 'h' || c == 'H'

/-- Embedding of `comment_pattern.fullmatch(line)` being a match, for
`comment_pattern = re.compile(r"^\s*#.*$")` (`cron_ext/entry.py` line 5 and
the identical `Cron.comment_pattern` of `cron_ext/extension.py` line 72):
leading `\s*` run, then `#`, then a newline-free remainder (`.` does not
match a newline, and a full match must consume the whole string). -/
def comment_fullmatch (s : String) : Bool :=
  match s.data.dropWhile pySpace with
  | '#' :: t => t.all (fun c => !(c == '\n'))
  | _ => false

/-- Embedding of `not entry.strip()` (Python truthiness of the stripped
string): the line consists of whitespace only. -/
def strippedEmpty (s : String) : Bool := s.data.all pySpace

/-- Embedding of `_ignore_entry` (`cron_ext/extension.py` lines 168-171 and
the identical `cron_ext/stores/crontab.py` lines 112-115): full-line comments
and blank lines are preserved/skipped. -/
def ignoreEntry (s : String) : Bool := comment_fullmatch s || strippedEmpty s

/-- Scan indices `i, i+1, ...` (at most `fuel` of them) for the first index
satisfying `p`. -/
def firstSuchAux (p : Nat → Bool) : Nat → Nat → Option Nat
  | 0, _ => none
  | fuel + 1, i => if p i then some i else firstSuchAux p fuel (i + 1)

/-- First index in `[0, n)` satisfying `p`, if any. -/
def firstSuch (p : Nat → Bool) (n : Nat) : Option Nat := firstSuchAux p n 0

/-- Index of the first element of a list satisfying `p`; embeds the scanning
loop of `_index_of_match` (`for i, line in enumerate(lines): if
compiled_pattern.fullmatch(line): return i` with a `ValueError`, i.e. `none`,
when no line matches). -/
def findIdxA {α : Type} (p : α → Bool) : List α → Option Nat
  | [] => none
  | a :: l => if p a then some 0 else (findIdxA p l).map (fun i => i + 1)

/-- Character of `cs` at index `i` (a space, matched by none of the pattern
literals below, when out of range). -/
def chAt (cs : List Char) (i : Nat) : Char := cs.getD i ' '

/-- No character of `cs` is a newline.  Both entry patterns consist of
literals and `.`-classes only, so any line containing a newline fails. -/
def nlFree (cs : List Char) : Bool := cs.all (fun c => !(c == '\n'))

/-- Position `j` carries the closing `'` of an entry match whose preceding
three characters are `.sh` (case-insensitively): this is the literal tail
`\.sh'` of both entry patterns. -/
def shEndAt (cs : List Char) (j : Nat) : Bool :=
  chAt cs j == '\'' && chAt cs (j - 3) == '.' &&
    sLike (chAt cs (j - 2)) && hLike (chAt cs (j - 1))

/-- Valid closing-quote positions for an entry match whose opening quote is at
`k`: the path group needs at least 4 characters, so `j ≥ k + 5`. -/
def entryEndPred (cs : List Char) (k j : Nat) : Bool :=
  decide (k + 5 ≤ j) && shEndAt cs j

/-- Greatest valid closing-quote position for opening quote `k`.  The
greedy/backtracking search of Python's engine settles on the rightmost
closing `'` preceded by `.sh` (validated against `re` on randomized inputs).
-/
def jMax (cs : List Char) (k : Nat) : Option Nat :=
  if entryEndPred cs k
      (Nat.findGreatest (fun j => entryEndPred cs k j = true) cs.length) = true
  then some (Nat.findGreatest (fun j => entryEndPred cs k j = true) cs.length)
  else none

/-- Position `q` carries a `/` lying strictly inside the path group (after the
opening quote at `k`). -/
def slashPred (cs : List Char) (k q : Nat) : Bool :=
  decide (k + 1 ≤ q) && chAt cs q == '/'

/-- Greatest `/` position at most `j - 4`: the `/` preceding the `name` group.
The greedy engine places the final `/` of the path sub-pattern as far right
as possible, so `name` is the final path segment. -/
def qMax (cs : List Char) (k j : Nat) : Nat :=
  Nat.findGreatest (fun q => slashPred cs k q = true) (j - 4)

/-- The `path` capture: characters strictly between the quotes at `k` and `j`.
-/
def pathSlice (cs : List Char) (k j : Nat) : List Char := (cs.take j).drop (k + 1)

/-- The `name` capture: characters strictly between the `/` at `q` and the
trailing `.sh`. -/
def nameSlice (cs : List Char) (q j : Nat) : List Char := (cs.take (j - 3)).drop (q + 1)

/-- Viable opening-quote positions for `entry_pattern` of `cron_ext/entry.py`:
`.+?` forces `k ≥ 1`; the path group of `(?:/.*)*/(?P<name>.*)\.sh` must
start with `/`; and some valid closing quote must exist. -/
def entryKeyPredA (cs : List Char) (k : Nat) : Bool :=
  decide (1 ≤ k) && chAt cs k == '\'' && chAt cs (k + 1) == '/' && (jMax cs k).isSome

/-- Viable opening-quote positions for `Cron.entry_pattern` of
`cron_ext/extension.py`: `.+?` forces `k ≥ 1`; the path group of
`/?(?:.*/)(?P<name>.*)\.sh` needs some `/` at distance at least 4 before the
closing quote, but need not start with `/`. -/
def entryKeyPredB (cs : List Char) (k : Nat) : Bool :=
  decide (1 ≤ k) && chAt cs k == '\'' &&
    (match jMax cs k with
     | some j => slashPred cs k (qMax cs k j)
     | none => false)

/-- Embedding of `entry_pattern.fullmatch` from `cron_ext/entry.py` line 6
(pattern `(?i)^.+?'(?P<path>(?:/.*)*/(?P<name>.*)\.sh)'.*$`), returning the
`path` and `name` captures of the match Python's engine produces: the lazy
`.+?` selects the least viable opening quote, the greedy remainder selects
the greatest closing quote and the rightmost final `/`. -/
def matchAData (cs : List Char) : Option (List Char × List Char) :=
  if nlFree cs then
    match firstSuch (entryKeyPredA cs) cs.length with
    | some k =>
      match jMax cs k with
      | some j => some (pathSlice cs k j, nameSlice cs (qMax cs k j) j)
      | none => none
    | none => none
  else none

/-- Embedding of `Cron.entry_pattern.fullmatch` from `cron_ext/extension.py`
line 73 (pattern `(?i)^.+?'(?P<path>/?(?:.*/)(?P<name>.*)\.sh)'.*$`), with
the same capture-selection discipline as `matchAData`. -/
def matchBData (cs : List Char) : Option (List Char × List Char) :=
  if nlFree cs then
    match firstSuch (entryKeyPredB cs) cs.length with
    | some k =>
      match jMax cs k with
      | some j => some (pathSlice cs k j, nameSlice cs (qMax cs k j) j)
      | none => none
    | none => none
  else none

/-- String-level wrapper of `matchAData`: `entry_pattern.fullmatch` of
`cron_ext/entry.py`. -/
def entry_fullmatch (s : String) : Option (String × String) :=
  (matchAData s.data).map (fun pn => (String.mk pn.1, String.mk pn.2))

/-- String-level wrapper of `matchBData`: `Cron.entry_pattern.fullmatch` of
`cron_ext/extension.py`. -/
def cron_entry_fullmatch (s : String) : Option (String × String) :=
  (matchBData s.data).map (fun pn => (String.mk pn.1, String.mk pn.2))

/-- Embedding of the marker-template suffix `\s*-+\s*$`: whitespace, a
non-empty dash run, then whitespace to the end of the line.  The three
classes are mutually exclusive at their boundaries, so maximal-munch
scanning is exact. -/
def markerTail (cs : List Char) : Bool :=
  match cs.dropWhile pySpace with
  | '-' :: t => (t.dropWhile (fun c => c == '-')).all pySpace
  | _ => false

/-- Embedding of the marker-template head `^\s*#\s*-+\s*`: returns the
remainder of the line after whitespace, `#`, whitespace and a non-empty dash
run followed by whitespace. -/
def markerHead (cs : List Char) : Option (List Char) :=
  match cs.dropWhile pySpace with
  | '#' :: t =>
    match t.dropWhile pySpace with
    | '-' :: t2 => some ((t2.dropWhile (fun c => c == '-')).dropWhile pySpace)
    | _ => none
  | _ => none

/-- Strip an exact literal from the front of `cs`, if present. -/
def stripLit (ph cs : List Char) : Option (List Char) :=
  if cs.take ph.length = ph then some (cs.drop ph.length) else none

/-- The literal phrase of the section-marker templates, for a given
`{}`-substituted word (BEGIN or END). -/
def sectionPhrase (word : String) : List Char := (word ++ " MELTANO CRONTAB SECTION").data

/-- Embedding of a `fullmatch` of the unkeyed marker template
`^\s*#\s*-+\s*{} MELTANO CRONTAB SECTION\s*-+\s*$` compiled (without flags)
by `Cron._find_meltano_section_indices` (`cron_ext/extension.py` lines
160-166). -/
def sectionMarkerU (word : String) (line : String) : Bool :=
  match markerHead line.data with
  | some r =>
    match stripLit (sectionPhrase word) r with
    | some t => markerTail t
    | none => false
  | none => false

/-- Embedding of the lazy group `(?P<id>.*?)\)` followed by `\s*-+\s*$`: the
first `)` whose tail is whitespace/dashes/whitespace closes the group; the
group cannot contain a newline.  (The tail of a successful split contains
only whitespace and dashes, hence no other split can succeed: the lazy
choice is in fact unique.) -/
def lazyIdAux (acc : List Char) : List Char → Option (List Char)
  | [] => none
  | c :: t =>
    if c == ')' && markerTail t then some acc.reverse
    else if c == '\n' then none
    else lazyIdAux (c :: acc) t

/-- Embedding of a `fullmatch` of the keyed marker template
`^\s*#\s*-+\s*{} MELTANO CRONTAB SECTION \((?P<id>.*?)\)\s*-+\s*$` compiled
(without flags) by `CrontabEntryStore._find_meltano_section_indices`
(`cron_ext/stores/crontab.py` lines 104-110), returning the `id` capture. -/
def sectionMarkerKId (word : String) (line : String) : Option String :=
  match markerHead line.data with
  | some r =>
    match stripLit (sectionPhrase word ++ [' ', '(']) r with
    | some t => (lazyIdAux [] t).map String.mk
    | none => none
  | none => none

/-- Embedding of the per-line test of `CrontabEntryStore._index_of_match`
(`cron_ext/stores/crontab.py` lines 96-102): the line matches the keyed
template and its `id` capture equals the store's `meltano_project_id`. -/
def sectionMarkerK (word pid : String) (line : String) : Bool :=
  sectionMarkerKId word line == some pid

/-- Embedding of `Cron._find_meltano_section_indices` (`cron_ext/extension.py`
lines 160-166): `(first BEGIN index) + 1` and `-(first END index in the
reversed lines) - 1`; `none` when either scan fails (the `ValueError`). -/
def findSectionU (lines : List String) : Option (Nat × Int) :=
  match findIdxA (sectionMarkerU "BEGIN") lines,
      findIdxA (sectionMarkerU "END") lines.reverse with
  | some i, some j => some (i + 1, -(j : Int) - 1)
  | _, _ => none

/-- Embedding of `CrontabEntryStore._find_meltano_section_indices`
(`cron_ext/stores/crontab.py` lines 104-110), the keyed variant of
`findSectionU`. -/
def findSectionK (pid : String) (lines : List String) : Option (Nat × Int) :=
  match findIdxA (sectionMarkerK "BEGIN" pid) lines,
      findIdxA (sectionMarkerK "END" pid) lines.reverse with
  | some i, some j => some (i + 1, -(j : Int) - 1)
  | _, _ => none

/-- Python index normalization for the (always negative) second component `b`
of the section indices: `lines[b:]` starts at `max(len(lines) + b, 0)`. -/
def pyEnd (n : Nat) (b : Int) : Nat := ((n : Int) + b).toNat

/-- The slice `lines[a:b]` (with non-negative `a` and negative `b`), the
managed-section content used by the `entries` getter. -/
def sliceMid (lines : List String) (a : Nat) (b : Int) : List String :=
  (lines.take (pyEnd lines.length b)).drop a

/-- The slice `lines[b:]` (with negative `b`), the lines after the managed
section used by the `entries` setter. -/
def sliceSuf (lines : List String) (b : Int) : List String :=
  lines.drop (pyEnd lines.length b)

/-- The BEGIN line appended by the `entries` setter of
`cron_ext/extension.py` when no section exists. -/
def beginLineStd : String := "# ----- BEGIN MELTANO CRONTAB SECTION -----"

/-- The END line appended by the `entries` setter of `cron_ext/extension.py`
when no section exists. -/
def endLineStd : String := "# ------ END MELTANO CRONTAB SECTION ------"

/-- Embedding of the `entries` getter (`cron_ext/extension.py` lines 187-196):
the non-ignored lines of the managed section, or `()` when the locator
raises. -/
def entriesOf (lines : List String) : List String :=
  match findSectionU lines with
  | some ab => (sliceMid lines ab.1 ab.2).filter (fun l => !(ignoreEntry l))
  | none => []

/-- Embedding of the `entries` setter (`cron_ext/extension.py` lines 198-220):
replace the managed section in place, or append a fresh section (blank line,
BEGIN marker, entries, END marker, blank line) at the bottom when the
locator raises. -/
def setEntries (lines newEntries : List String) : List String :=
  match findSectionU lines with
  | some ab => lines.take ab.1 ++ newEntries ++ sliceSuf lines ab.2
  | none => lines ++ ("" :: beginLineStd :: (newEntries ++ [endLineStd, ""]))

/-- The `name` capture of an entry under `Cron.entry_pattern`, when it
matches. -/
def nameOfEntry (e : String) : Option String := (cron_entry_fullmatch e).map (fun pn => pn.2)

/-- The `path` capture of an entry under `Cron.entry_pattern`, when it
matches. -/
def pathOfEntry (e : String) : Option String := (cron_entry_fullmatch e).map (fun pn => pn.1)

/-- Embedding of `Cron._unique_entries` (`cron_ext/extension.py` lines
173-185) with explicit `seen` state: ignored lines pass through, lines that
do not match `Cron.entry_pattern` are dropped, and a matching line passes
only on the first sighting of its `name`. -/
def uniqueEntriesAux (seen : List String) : List String → List String
  | [] => []
  | e :: rest =>
    if ignoreEntry e then e :: uniqueEntriesAux seen rest
    else
      match cron_entry_fullmatch e with
      | none => uniqueEntriesAux seen rest
      | some pn =>
        if pn.2 ∈ seen then uniqueEntriesAux seen rest
        else e :: uniqueEntriesAux (pn.2 :: seen) rest

/-- The `seen` set of `Cron._unique_entries` after processing a list. -/
def seenAfter (seen : List String) : List String → List String
  | [] => seen
  | e :: rest =>
    if ignoreEntry e then seenAfter seen rest
    else
      match cron_entry_fullmatch e with
      | none => seenAfter seen rest
      | some pn =>
        if pn.2 ∈ seen then seenAfter seen rest
        else seenAfter (pn.2 :: seen) rest

/-- `Cron._unique_entries` with its initial empty `seen` set. -/
def uniqueEntries (entries : List String) : List String := uniqueEntriesAux [] entries

/-- Embedding of the store mutation performed by `Cron.install`
(`cron_ext/extension.py` lines 262-267): write back the deduplicated
concatenation of the newly generated entries and the current entries. -/
def installEntries (newEntries : List String) (lines : List String) : List String :=
  setEntries lines (uniqueEntries (newEntries ++ entriesOf lines))

/-- The per-entry survival test of `Cron.uninstall` (`cron_ext/extension.py`
lines 301-305): keep an entry iff it matches `Cron.entry_pattern` and the
removal predicate rejects its name. -/
def keepEntry (pred : String → Bool) (e : String) : Bool :=
  match cron_entry_fullmatch e with
  | some pn => !(pred pn.2)
  | none => false

/-- Embedding of `Cron.uninstall`'s store mutation and script removal
(`cron_ext/extension.py` lines 287-312): the new store content, and the list
of wrapper-script paths unlinked (deletion of a missing file is suppressed
in the source, so the paths are collected unconditionally). -/
def uninstallEntries (pred : String → Bool) (lines : List String) :
    List String × List String :=
  let prev := entriesOf lines
  (setEntries lines (prev.filter (keepEntry pred)),
   prev.filterMap (fun e =>
     match cron_entry_fullmatch e with
     | some pn => if pred pn.2 then some pn.1 else none
     | none => none))

/-- Embedding of the predicate selection of `Cron.install`
(`cron_ext/extension.py` lines 258-261): membership in `schedule_ids` when
non-empty, otherwise everything. -/
def installPredicate (ids : List String) : String → Bool :=
  if ids.isEmpty then fun _ => true else fun x => ids.contains x

/-- Embedding of the predicate selection of `Cron.uninstall`
(`cron_ext/extension.py` lines 290-298): everything under `--all`, else
membership in `schedule_ids` when non-empty, else membership in the current
schedule snapshot's names. -/
def uninstallPredicate (ids : List String) (uninstallAll : Bool)
    (known : List String) : String → Bool :=
  if uninstallAll then fun _ => true
  else if ids.isEmpty then fun x => known.contains x
  else fun x => ids.contains x

/-- A schedule as far as entry generation is concerned: its unique name and
its (opaque) interval string. -/
structure Schedule where
  name : String
  interval : String
deriving DecidableEq

/-- The entry line generated for a schedule by `Cron._new_entries`
(`cron_ext/extension.py` line 245): the interval followed by the
single-quoted wrapper-script path `dir/name.sh`. -/
def scheduleEntry (dir : String) (sch : Schedule) : String :=
  sch.interval ++ " '" ++ dir ++ "/" ++ sch.name ++ ".sh'"

/-- The entries generated by `Cron._new_entries` for a selection: one entry
per schedule whose name passes the install predicate (in schedule order). -/
def newEntriesFor (dir : String) (schedules : List Schedule) (ids : List String) :
    List String :=
  (schedules.filter (fun sch => installPredicate ids sch.name)).map (scheduleEntry dir)

/-- The names of the current schedule snapshot (`Cron.meltano_schedule_ids`).
-/
def knownIdsOf (schedules : List Schedule) : List String := schedules.map Schedule.name

/-- The set difference `schedule_ids - meltano_schedule_ids` computed by
`Cron.install` (`cron_ext/extension.py` line 269). -/
def unavailableIds (ids : List String) (schedules : List Schedule) : List String :=
  ids.filter (fun x => !((knownIdsOf schedules).contains x))

/-- Embedding of `Cron.install` (`cron_ext/extension.py` lines 247-275): the
store mutation always happens; afterwards, if `schedule_ids` was non-empty
and some of them are unknown, the unknown ones are reported (`some us`
models the error log followed by `sys.exit(1)`). -/
def installOp (dir : String) (schedules : List Schedule) (ids : List String)
    (lines : List String) : List String × Option (List String) :=
  (installEntries (newEntriesFor dir schedules ids) lines,
   if ids.isEmpty then none
   else if (unavailableIds ids schedules).isEmpty then none
   else some (unavailableIds ids schedules))

/-- The two entry stores selectable by `--target` (`cron_ext/__init__.py`). -/
inductive StoreKind
  | crontab
  | stdout
deriving DecidableEq

/-- The `is_managed` capability flag: `True` for `CrontabEntryStore`
(`cron_ext/stores/crontab.py` line 23), `False` for `StdoutEntryStore`
(`cron_ext/stores/stdout.py` line 13). -/
def isManaged : StoreKind → Bool
  | StoreKind.crontab => true
  | StoreKind.stdout => false

/-- Store content plus the wrapper-script files on disk. -/
structure SysState where
  storeLines : List String
  files : List String
deriving DecidableEq

/-- Modelled from the spec: the store-dispatching `Cron.uninstall` of the
store-based code (its body is not under `src/`; `src/cron_ext/main.py` lines
103-122 and the test `test_uninstall_from_stdout_errors` pin its interface).
Per spec section 4.3 step 1, it "fails immediately with an error if the
target store is not managed", before any store write or file deletion;
otherwise it performs the uninstall mutation. -/
def uninstallViaStore (kind : StoreKind) (pred : String → Bool) (st : SysState) :
    Except String SysState :=
  if isManaged kind then
    let r := uninstallEntries pred st.storeLines
    Except.ok { storeLines := r.1, files := st.files.filter (fun f => !(r.2.contains f)) }
  else Except.error "Cannot uninstall from an unmanaged cron entry store"

/-- Embedding of the `uninstall` CLI command (`cron_ext/main.py` lines
103-122): a `ValueError` from `Cron.uninstall` is logged and the process
exits with code 1, leaving the state untouched; otherwise exit code 0. -/
def uninstallCLI (kind : StoreKind) (pred : String → Bool) (st : SysState) :
    Nat × SysState :=
  match uninstallViaStore kind pred st with
  | Except.ok st2 => (0, st2)
  | Except.error _ => (1, st)

/-- The three classes of spec section 4.1: a line is first tested by
`_ignore_entry`, then by the entry pattern. -/
inductive LineClass
  | commentOrBlank
  | managed
  | foreign
deriving DecidableEq

/-- The classification of a line induced by the reconciliation code
(`_ignore_entry` first, then `entry_pattern.fullmatch`). -/
def classifyLine (s : String) : LineClass :=
  if ignoreEntry s then LineClass.commentOrBlank
  else
    match entry_fullmatch s with
    | some _ => LineClass.managed
    | none => LineClass.foreign

/-- Spec section 4.1's shape of a managed-entry path: `<absolute-path>` then
`/<name>.sh` (case-insensitive `sh`), the whole group starting with `/`. -/
def PathShape (p : List Char) : Prop :=
  ∃ d nm c1 c2, p = d ++ '/' :: (nm ++ ['.', c1, c2]) ∧
    (d = [] ∨ ∃ d2, d = '/' :: d2) ∧ sLike c1 = true ∧ hLike c2 = true

/-- The claim's shape for `parse_entry` read literally, with `<anything>`
allowed to be empty before the opening quote:
`<anything>'<absolute-path>/<name>.sh'<anything>` as a full-line match. -/
def claimedEntryShape (s : String) : Prop :=
  ∃ pre p post, s.data = pre ++ '\'' :: (p ++ '\'' :: post) ∧ PathShape p ∧
    nlFree s.data = true

/-- The amended shape: as `claimedEntryShape`, but the text before the opening
quote must be non-empty (the pattern begins with `.+?`, not `.*?`). -/
def specEntryShape (s : String) : Prop :=
  ∃ pre p post, s.data = pre ++ '\'' :: (p ++ '\'' :: post) ∧ pre ≠ [] ∧ PathShape p ∧
    nlFree s.data = true

/-- All characters are regex-`\s` whitespace. -/
def wsList (w : List Char) : Prop := ∀ c ∈ w, pySpace c = true

/-- A non-empty run of dashes. -/
def dashList (d : List Char) : Prop := d ≠ [] ∧ ∀ c ∈ d, c = '-'

/-- Case-insensitive equality of character lists (letter-case folding). -/
def lowerEq (xs ys : List Char) : Prop := xs.map Char.toLower = ys.map Char.toLower

/-- The decomposition asserted of a keyed section-marker line: comment `#`,
dash runs, the marker phrase (under a given phrase predicate), and the
parenthesized project identifier, with whitespace tolerance. -/
def MarkerShapeWith (phr : List Char → Prop) (pid : String) (line : String) : Prop :=
  ∃ w1 w2 d1 w3 ph idc w4 d2 w5,
    line.data =
      w1 ++ '#' :: (w2 ++ d1 ++ w3 ++ ph ++ ' ' :: '(' ::
        (idc ++ ')' :: (w4 ++ d2 ++ w5))) ∧
    wsList w1 ∧ wsList w2 ∧ dashList d1 ∧ wsList w3 ∧ phr ph ∧
    idc = pid.data ∧ idc.all (fun c => !(c == '\n')) = true ∧
    wsList w4 ∧ dashList d2 ∧ wsList w5

/-- The claim's keyed marker shape: phrase matched insensitively to letter
case. -/
def claimedMarkerCI (word pid : String) (line : String) : Prop :=
  MarkerShapeWith (fun ph => lowerEq ph (sectionPhrase word)) pid line

/-- The amended keyed marker shape: phrase matched exactly (the marker
templates are compiled without `re.IGNORECASE`). -/
def specMarkerK (word pid : String) (line : String) : Prop :=
  MarkerShapeWith (fun ph => ph = sectionPhrase word) pid line

/-- A line is a managed entry named `nm`: not ignored, and its `name` capture
is `nm`. -/
def isManagedNamed (nm : String) (e : String) : Bool :=
  !(ignoreEntry e) && (nameOfEntry e == some nm)

/-- Number of managed entries named `nm` in a list of lines. -/
def countManagedNamed (nm : String) (zs : List String) : Nat :=
  (zs.filter (isManagedNamed nm)).length

/-- The lines outside the managed section: before-and-including the BEGIN
marker, and from the last END marker on (the whole content and nothing,
respectively, when the locator fails). -/
def outsideParts (lines : List String) : List String × List String :=
  match findSectionU lines with
  | some ab => (lines.take ab.1, sliceSuf lines ab.2)
  | none => (lines, [])

/-- Some line matches the unkeyed BEGIN template. -/
def hasBeginU (lines : List String) : Bool := lines.any (sectionMarkerU "BEGIN")

/-- Some line matches the unkeyed END template. -/
def hasEndU (lines : List String) : Bool := lines.any (sectionMarkerU "END")

end CronExt

namespace CronExt

theorem firstSuchAux_some {p : Nat → Bool} {fuel i k : Nat}
    (h : firstSuchAux p fuel i = some k) :
    p k = true ∧ i ≤ k ∧ k < i + fuel ∧ ∀ m, i ≤ m → m < k → p m = false := by
  induction fuel generalizing i with
  | zero => simp [firstSuchAux] at h
  | succ n ih =>
    rw [firstSuchAux] at h
    split at h
    · rename_i hp
      cases h
      exact ⟨hp, Nat.le_refl _, by omega, fun m h1 h2 => absurd h1 (by omega)⟩
    · rename_i hp
      obtain ⟨h1, h2, h3, h4⟩ := ih h
      refine ⟨h1, by omega, by omega, fun m hm1 hm2 => ?_⟩
      rcases Nat.eq_or_lt_of_le hm1 with rfl | hlt
      · exact Bool.not_eq_true _ ▸ by simpa using hp
      · exact h4 m (by omega) hm2

theorem firstSuchAux_none {p : Nat → Bool} {fuel i : Nat}
    (h : firstSuchAux p fuel i = none) :
    ∀ m, i ≤ m → m < i + fuel → p m = false := by
  induction fuel generalizing i with
  | zero => intro m h1 h2; omega
  | succ n ih =>
    rw [firstSuchAux] at h
    split at h
    · cases h
    · rename_i hp
      intro m h1 h2
      rcases Nat.eq_or_lt_of_le h1 with rfl | hlt
      · simpa using hp
      · exact ih h m (by omega) (by omega)

theorem firstSuchAux_isSome {p : Nat → Bool} {fuel i k : Nat}
    (hk : i ≤ k) (h2 : k < i + fuel) (hp : p k = true) :
    (firstSuchAux p fuel i).isSome = true := by
  cases hfs : firstSuchAux p fuel i with
  | some m => rfl
  | none => exact absurd (firstSuchAux_none hfs k hk h2) (by simp [hp])

theorem firstSuch_some {p : Nat → Bool} {n k : Nat} (h : firstSuch p n = some k) :
    p k = true ∧ k < n ∧ ∀ m, m < k → p m = false := by
  obtain ⟨h1, _, h3, h4⟩ := firstSuchAux_some h
  exact ⟨h1, by omega, fun m hm => h4 m (Nat.zero_le m) hm⟩

theorem firstSuch_none {p : Nat → Bool} {n : Nat} (h : firstSuch p n = none) :
    ∀ m, m < n → p m = false := by
  intro m hm
  exact firstSuchAux_none h m (Nat.zero_le m) (by omega)

theorem firstSuch_isSome {p : Nat → Bool} {n k : Nat} (hk : k < n) (hp : p k = true) :
    (firstSuch p n).isSome = true :=
  firstSuchAux_isSome (Nat.zero_le k) (by omega) hp

theorem findIdxA_decomp {α : Type} {p : α → Bool} {l : List α} {i : Nat}
    (h : findIdxA p l = some i) :
    ∃ l1 a l2, l = l1 ++ a :: l2 ∧ l1.length = i ∧ p a = true ∧
      ∀ b ∈ l1, p b = false := by
  induction l generalizing i with
  | nil => simp [findIdxA] at h
  | cons x t ih =>
    rw [findIdxA] at h
    split at h
    · rename_i hp
      cases h
      exact ⟨[], x, t, rfl, rfl, hp, by simp⟩
    · rename_i hp
      obtain ⟨i', hi', rfl⟩ := Option.map_eq_some'.mp h
      obtain ⟨l1, a, l2, h1, h2, h3, h4⟩ := ih hi'
      refine ⟨x :: l1, a, l2, by simp [h1], by simp [h2], h3, ?_⟩
      intro b hb
      rcases List.mem_cons.mp hb with rfl | hb2
      · simpa using hp
      · exact h4 b hb2

theorem findIdxA_of_decomp {α : Type} {p : α → Bool} (l1 : List α) (a : α) (l2 : List α)
    (hp : p a = true) (h1 : ∀ b ∈ l1, p b = false) :
    findIdxA p (l1 ++ a :: l2) = some l1.length := by
  induction l1 with
  | nil => simp [findIdxA, hp]
  | cons x t ih =>
    have hx : p x = false := h1 x (by simp)
    have ih2 := ih (fun b hb => h1 b (by simp [hb]))
    show findIdxA p (x :: (t ++ a :: l2)) = some (t.length + 1)
    rw [findIdxA]
    simp [hx, ih2]

theorem findIdxA_none_iff {α : Type} {p : α → Bool} {l : List α} :
    findIdxA p l = none ↔ ∀ a ∈ l, p a = false := by
  induction l with
  | nil => simp [findIdxA]
  | cons x t ih =>
    rw [findIdxA]
    by_cases hp : p x = true
    · simp [hp]
    · have hx : p x = false := by simpa using hp
      simp [hx, ih]

theorem findIdxA_isSome_of_mem {α : Type} {p : α → Bool} {l : List α} {a : α}
    (ha : a ∈ l) (hp : p a = true) : (findIdxA p l).isSome = true := by
  cases hf : findIdxA p l with
  | some i => rfl
  | none => exact absurd (findIdxA_none_iff.mp hf a ha) (by simp [hp])

end CronExt

namespace CronExt

theorem findSectionU_eq_some {lines : List String} {a : Nat} {b : Int} :
    findSectionU lines = some (a, b) ↔
      ∃ i j, findIdxA (sectionMarkerU "BEGIN") lines = some i ∧
        findIdxA (sectionMarkerU "END") lines.reverse = some j ∧
        a = i + 1 ∧ b = -(j : Int) - 1 := by
  unfold findSectionU
  cases hB : findIdxA (sectionMarkerU "BEGIN") lines with
  | none => simp [hB]
  | some i =>
    cases hE : findIdxA (sectionMarkerU "END") lines.reverse with
    | none => simp [hE]
    | some j =>
      constructor
      · intro h
        refine ⟨i, j, rfl, rfl, ?_, ?_⟩
        · exact congrArg Prod.fst (Option.some_inj.mp h) |>.symm
        · exact congrArg Prod.snd (Option.some_inj.mp h) |>.symm
      · rintro ⟨i2, j2, hi2, hj2, rfl, rfl⟩
        cases hi2; cases hj2; rfl

theorem findSectionU_none_cases {lines : List String}
    (h : findSectionU lines = none) :
    findIdxA (sectionMarkerU "BEGIN") lines = none ∨
      findIdxA (sectionMarkerU "END") lines.reverse = none := by
  unfold findSectionU at h
  cases hB : findIdxA (sectionMarkerU "BEGIN") lines with
  | none => exact Or.inl rfl
  | some i =>
    cases hE : findIdxA (sectionMarkerU "END") lines.reverse with
    | none => exact Or.inr rfl
    | some j => rw [hB, hE] at h; cases h

theorem findSectionU_isSome_of (lines : List String)
    (hB : hasBeginU lines = true) (hE : hasEndU lines = true) :
    (findSectionU lines).isSome = true := by
  obtain ⟨lb, hlb, hb⟩ := List.any_eq_true.mp hB
  obtain ⟨le2, hle, he⟩ := List.any_eq_true.mp hE
  have h1 := findIdxA_isSome_of_mem hlb hb
  have h2 := findIdxA_isSome_of_mem (List.mem_reverse.mpr hle) he
  unfold findSectionU
  cases hfb : findIdxA (sectionMarkerU "BEGIN") lines with
  | none => rw [hfb] at h1; cases h1
  | some i =>
    cases hfe : findIdxA (sectionMarkerU "END") lines.reverse with
    | none => rw [hfe] at h2; cases h2
    | some j => rfl

theorem pyEnd_decomp (n m : Nat) (h : m ≤ n) : pyEnd n (-(m : Int)) = n - m := by
  unfold pyEnd; omega

theorem sectionDecomp_find
    (pre0 mid suf1 : List String) (bL eL : String)
    (hb : sectionMarkerU "BEGIN" bL = true)
    (hpre0 : ∀ l ∈ pre0, sectionMarkerU "BEGIN" l = false)
    (he : sectionMarkerU "END" eL = true)
    (hsuf1 : ∀ l ∈ suf1, sectionMarkerU "END" l = false) :
    findSectionU ((pre0 ++ [bL]) ++ mid ++ (eL :: suf1)) =
      some (pre0.length + 1, -((eL :: suf1).length : Int)) := by
  have hBfind : findIdxA (sectionMarkerU "BEGIN") ((pre0 ++ [bL]) ++ mid ++ (eL :: suf1)) =
      some pre0.length := by
    have h := findIdxA_of_decomp pre0 bL (mid ++ (eL :: suf1)) hb hpre0
    simpa [List.append_assoc] using h
  have hrev : ((pre0 ++ [bL]) ++ mid ++ (eL :: suf1)).reverse =
      suf1.reverse ++ eL :: (mid.reverse ++ (bL :: pre0.reverse)) := by
    simp [List.reverse_append]
  have hEfind : findIdxA (sectionMarkerU "END") ((pre0 ++ [bL]) ++ mid ++ (eL :: suf1)).reverse =
      some suf1.length := by
    rw [hrev]
    have h := findIdxA_of_decomp suf1.reverse eL (mid.reverse ++ (bL :: pre0.reverse)) he
      (fun x hx => hsuf1 x (List.mem_reverse.mp hx))
    simpa using h
  rw [findSectionU_eq_some]
  refine ⟨pre0.length, suf1.length, hBfind, hEfind, rfl, ?_⟩
  simp [List.length_cons]
  omega

theorem slice_take_decomp (P M S : List String) :
    ((P ++ M ++ S).take P.length) = P := by
  rw [List.append_assoc]
  exact List.take_left P (M ++ S)

theorem slice_suf_decomp (P M S : List String) :
    sliceSuf (P ++ M ++ S) (-(S.length : Int)) = S := by
  unfold sliceSuf
  have hle : S.length ≤ (P ++ M ++ S).length := by simp; omega
  rw [pyEnd_decomp _ _ hle]
  have hlen : (P ++ M ++ S).length - S.length = (P ++ M).length := by simp; omega
  rw [hlen]
  exact List.drop_left (P ++ M) S

theorem slice_mid_decomp (P M S : List String) :
    sliceMid (P ++ M ++ S) P.length (-(S.length : Int)) = M := by
  unfold sliceMid
  have hle : S.length ≤ (P ++ M ++ S).length := by simp; omega
  rw [pyEnd_decomp _ _ hle]
  have hlen : (P ++ M ++ S).length - S.length = (P ++ M).length := by simp; omega
  rw [hlen]
  have ht : (P ++ M ++ S).take (P ++ M).length = P ++ M := List.take_left (P ++ M) S
  rw [ht]
  exact List.drop_left P M

end CronExt

namespace CronExt

theorem found_parts {lines : List String} {a : Nat} {b : Int}
    (h : findSectionU lines = some (a, b)) :
    ∃ pre0 bL suf1 eL,
      lines.take a = pre0 ++ [bL] ∧ sliceSuf lines b = eL :: suf1 ∧
      a = pre0.length + 1 ∧
      sectionMarkerU "BEGIN" bL = true ∧ (∀ l ∈ pre0, sectionMarkerU "BEGIN" l = false) ∧
      sectionMarkerU "END" eL = true ∧ (∀ l ∈ suf1, sectionMarkerU "END" l = false) := by
  obtain ⟨i, j, hB, hE, rfl, rfl⟩ := findSectionU_eq_some.mp h
  obtain ⟨l1, bL, l2, hdec, hlen, hb, hl1⟩ := findIdxA_decomp hB
  obtain ⟨r1, eL, r2, hdecE, hlenE, he, hr1⟩ := findIdxA_decomp hE
  have hlines : lines = r2.reverse ++ eL :: r1.reverse := by
    have := congrArg List.reverse hdecE
    simpa [List.reverse_append] using this
  refine ⟨l1, bL, r1.reverse, eL, ?_, ?_, by omega, hb, hl1, he, ?_⟩
  · rw [hdec, ← hlen]
    have h2 : (l1 ++ bL :: l2).take (l1.length + 1) = l1 ++ (bL :: l2).take 1 :=
      List.take_append 1
    simpa using h2
  · unfold sliceSuf
    have hnlen : lines.length = r1.length + 1 + r2.length := by
      have h3 := congrArg List.length hdecE
      simp at h3
      omega
    have hpy : pyEnd lines.length (-(↑j : Int) - 1) = r2.length := by
      unfold pyEnd; omega
    rw [hpy, hlines]
    simp
  · intro l hl
    exact hr1 l (List.mem_reverse.mp hl)

theorem setEntries_found {lines : List String} {a : Nat} {b : Int}
    (h : findSectionU lines = some (a, b)) (xs : List String) :
    setEntries lines xs = lines.take a ++ xs ++ sliceSuf lines b := by
  unfold setEntries
  rw [h]

theorem setEntries_stable {lines : List String} {a : Nat} {b : Int}
    (h : findSectionU lines = some (a, b)) (xs : List String) :
    findSectionU (setEntries lines xs) = some (a, -((sliceSuf lines b).length : Int)) ∧
    entriesOf (setEntries lines xs) = xs.filter (fun l => !(ignoreEntry l)) ∧
    (∀ ys, setEntries (setEntries lines xs) ys = lines.take a ++ ys ++ sliceSuf lines b) := by
  obtain ⟨pre0, bL, suf1, eL, hpre, hsuf, ha, hb, hpre0, he, hsuf1⟩ := found_parts h
  have hset : setEntries lines xs = (pre0 ++ [bL]) ++ xs ++ (eL :: suf1) := by
    rw [setEntries_found h xs, hpre, hsuf]
  have hfind : findSectionU (setEntries lines xs) =
      some (pre0.length + 1, -((eL :: suf1).length : Int)) := by
    rw [hset]
    exact sectionDecomp_find pre0 xs suf1 bL eL hb hpre0 he hsuf1
  have hfind2 : findSectionU (setEntries lines xs) =
      some (a, -((sliceSuf lines b).length : Int)) := by
    rw [hfind, hsuf, ha]
  refine ⟨hfind2, ?_, ?_⟩
  · unfold entriesOf
    rw [hfind2]
    have hmid : sliceMid (setEntries lines xs) a (-((sliceSuf lines b).length : Int)) = xs := by
      rw [hset, hsuf, ha]
      have h4 := slice_mid_decomp (pre0 ++ [bL]) xs (eL :: suf1)
      simpa using h4
    show (sliceMid (setEntries lines xs) a (-((sliceSuf lines b).length : Int))).filter
        (fun l => !(ignoreEntry l)) = xs.filter (fun l => !(ignoreEntry l))
    rw [hmid]
  · intro ys
    rw [setEntries_found hfind2 ys]
    have htake : (setEntries lines xs).take a = lines.take a := by
      rw [hset, hpre, ha]
      have h5 := slice_take_decomp (pre0 ++ [bL]) xs (eL :: suf1)
      simpa using h5
    have hsuf2 : sliceSuf (setEntries lines xs) (-((sliceSuf lines b).length : Int)) =
        sliceSuf lines b := by
      rw [hset, hsuf]
      exact slice_suf_decomp (pre0 ++ [bL]) xs (eL :: suf1)
    rw [htake, hsuf2]

theorem setEntries_absent {lines : List String} (h : findSectionU lines = none)
    (xs : List String) :
    setEntries lines xs = lines ++ "" :: beginLineStd :: (xs ++ [endLineStd, ""]) := by
  unfold setEntries
  rw [h]

theorem setEntries_absent_stable {lines : List String} (h : findSectionU lines = none)
    (hnb : ∀ l ∈ lines, sectionMarkerU "BEGIN" l = false) (xs : List String) :
    entriesOf (setEntries lines xs) = xs.filter (fun l => !(ignoreEntry l)) ∧
    (∀ ys, setEntries (setEntries lines xs) ys =
      lines ++ "" :: beginLineStd :: (ys ++ [endLineStd, ""])) := by
  have hshape : setEntries lines xs = ((lines ++ [""]) ++ [beginLineStd]) ++ xs ++
      (endLineStd :: [""]) := by
    rw [setEntries_absent h xs]
    simp
  have hpre0 : ∀ l ∈ lines ++ [""], sectionMarkerU "BEGIN" l = false := by
    intro l hl
    rcases List.mem_append.mp hl with hl2 | hl2
    · exact hnb l hl2
    · have : l = "" := by simpa using hl2
      subst this
      decide
  have hsuf1 : ∀ l ∈ [""], sectionMarkerU "END" l = false := by
    intro l hl
    have : l = "" := by simpa using hl
    subst this
    decide
  have hb : sectionMarkerU "BEGIN" beginLineStd = true := by decide
  have he : sectionMarkerU "END" endLineStd = true := by decide
  have hfind : findSectionU (setEntries lines xs) =
      some ((lines ++ [""]).length + 1, -((endLineStd :: [""]).length : Int)) := by
    rw [hshape]
    exact sectionDecomp_find (lines ++ [""]) xs [""] beginLineStd endLineStd hb hpre0 he hsuf1
  constructor
  · unfold entriesOf
    rw [hfind]
    have hmid : sliceMid (setEntries lines xs) ((lines ++ [""]).length + 1)
        (-((endLineStd :: [""]).length : Int)) = xs := by
      rw [hshape]
      have h6 := slice_mid_decomp ((lines ++ [""]) ++ [beginLineStd]) xs (endLineStd :: [""])
      simpa using h6
    show (sliceMid (setEntries lines xs) ((lines ++ [""]).length + 1)
        (-((endLineStd :: [""]).length : Int))).filter (fun l => !(ignoreEntry l)) =
      xs.filter (fun l => !(ignoreEntry l))
    rw [hmid]
  · intro ys
    rw [setEntries_found hfind ys]
    have htake : (setEntries lines xs).take ((lines ++ [""]).length + 1) =
        (lines ++ [""]) ++ [beginLineStd] := by
      rw [hshape]
      have := slice_take_decomp ((lines ++ [""]) ++ [beginLineStd]) xs (endLineStd :: [""])
      simpa using this
    have hsuf2 : sliceSuf (setEntries lines xs) (-((endLineStd :: [""]).length : Int)) =
        endLineStd :: [""] := by
      rw [hshape]
      exact slice_suf_decomp ((lines ++ [""]) ++ [beginLineStd]) xs (endLineStd :: [""])
    rw [htake, hsuf2]
    simp

end CronExt

namespace CronExt

theorem uniqueAux_cons_ignore {e : String} {seen rest : List String}
    (h : ignoreEntry e = true) :
    uniqueEntriesAux seen (e :: rest) = e :: uniqueEntriesAux seen rest := by
  simp [uniqueEntriesAux, h]

theorem uniqueAux_cons_none {e : String} {seen rest : List String}
    (h1 : ignoreEntry e = false) (h2 : cron_entry_fullmatch e = none) :
    uniqueEntriesAux seen (e :: rest) = uniqueEntriesAux seen rest := by
  simp [uniqueEntriesAux, h1, h2]

theorem uniqueAux_cons_seen {e : String} {seen rest : List String} {pn : String × String}
    (h1 : ignoreEntry e = false) (h2 : cron_entry_fullmatch e = some pn)
    (h3 : pn.2 ∈ seen) :
    uniqueEntriesAux seen (e :: rest) = uniqueEntriesAux seen rest := by
  simp [uniqueEntriesAux, h1, h2, h3]

theorem uniqueAux_cons_new {e : String} {seen rest : List String} {pn : String × String}
    (h1 : ignoreEntry e = false) (h2 : cron_entry_fullmatch e = some pn)
    (h3 : pn.2 ∉ seen) :
    uniqueEntriesAux seen (e :: rest) = e :: uniqueEntriesAux (pn.2 :: seen) rest := by
  simp [uniqueEntriesAux, h1, h2, h3]

theorem seenAfter_cons_ignore {e : String} {seen rest : List String}
    (h : ignoreEntry e = true) :
    seenAfter seen (e :: rest) = seenAfter seen rest := by
  simp [seenAfter, h]

theorem seenAfter_cons_none {e : String} {seen rest : List String}
    (h1 : ignoreEntry e = false) (h2 : cron_entry_fullmatch e = none) :
    seenAfter seen (e :: rest) = seenAfter seen rest := by
  simp [seenAfter, h1, h2]

theorem seenAfter_cons_seen {e : String} {seen rest : List String} {pn : String × String}
    (h1 : ignoreEntry e = false) (h2 : cron_entry_fullmatch e = some pn)
    (h3 : pn.2 ∈ seen) :
    seenAfter seen (e :: rest) = seenAfter seen rest := by
  simp [seenAfter, h1, h2, h3]

theorem seenAfter_cons_new {e : String} {seen rest : List String} {pn : String × String}
    (h1 : ignoreEntry e = false) (h2 : cron_entry_fullmatch e = some pn)
    (h3 : pn.2 ∉ seen) :
    seenAfter seen (e :: rest) = seenAfter (pn.2 :: seen) rest := by
  simp [seenAfter, h1, h2, h3]

theorem uniqueAux_append (seen : List String) (xs ys : List String) :
    uniqueEntriesAux seen (xs ++ ys) =
      uniqueEntriesAux seen xs ++ uniqueEntriesAux (seenAfter seen xs) ys := by
  induction xs generalizing seen with
  | nil => simp [uniqueEntriesAux, seenAfter]
  | cons e rest ih =>
    show uniqueEntriesAux seen (e :: (rest ++ ys)) = _
    by_cases hig : ignoreEntry e = true
    · rw [uniqueAux_cons_ignore hig, uniqueAux_cons_ignore hig, seenAfter_cons_ignore hig,
        ih seen, List.cons_append]
    · have hig2 : ignoreEntry e = false := by simpa using hig
      cases hm : cron_entry_fullmatch e with
      | none =>
        rw [uniqueAux_cons_none hig2 hm, uniqueAux_cons_none hig2 hm,
          seenAfter_cons_none hig2 hm, ih seen]
      | some pn =>
        by_cases hs : pn.2 ∈ seen
        · rw [uniqueAux_cons_seen hig2 hm hs, uniqueAux_cons_seen hig2 hm hs,
            seenAfter_cons_seen hig2 hm hs, ih seen]
        · rw [uniqueAux_cons_new hig2 hm hs, uniqueAux_cons_new hig2 hm hs,
            seenAfter_cons_new hig2 hm hs, ih (pn.2 :: seen), List.cons_append]

theorem seenAfter_mono {seen : List String} {xs : List String} {x : String}
    (hx : x ∈ seen) : x ∈ seenAfter seen xs := by
  induction xs generalizing seen with
  | nil => simpa [seenAfter] using hx
  | cons e rest ih =>
    by_cases hig : ignoreEntry e = true
    · rw [seenAfter_cons_ignore hig]; exact ih hx
    · have hig2 : ignoreEntry e = false := by simpa using hig
      cases hm : cron_entry_fullmatch e with
      | none => rw [seenAfter_cons_none hig2 hm]; exact ih hx
      | some pn =>
        by_cases hs : pn.2 ∈ seen
        · rw [seenAfter_cons_seen hig2 hm hs]; exact ih hx
        · rw [seenAfter_cons_new hig2 hm hs]
          exact ih (List.mem_cons_of_mem _ hx)

theorem uniqueAux_mem_name {seen : List String} {xs : List String} {e : String}
    (he : e ∈ uniqueEntriesAux seen xs) (hig : ignoreEntry e = false) :
    ∃ pn, cron_entry_fullmatch e = some pn ∧ pn.2 ∈ seenAfter seen xs := by
  induction xs generalizing seen with
  | nil => simp [uniqueEntriesAux] at he
  | cons e2 rest ih =>
    by_cases hig2 : ignoreEntry e2 = true
    · rw [uniqueAux_cons_ignore hig2] at he
      rw [seenAfter_cons_ignore hig2]
      rcases List.mem_cons.mp he with rfl | he2
      · rw [hig] at hig2; cases hig2
      · exact ih he2
    · have hig3 : ignoreEntry e2 = false := by simpa using hig2
      cases hm : cron_entry_fullmatch e2 with
      | none =>
        rw [uniqueAux_cons_none hig3 hm] at he
        rw [seenAfter_cons_none hig3 hm]
        exact ih he
      | some pn =>
        by_cases hs : pn.2 ∈ seen
        · rw [uniqueAux_cons_seen hig3 hm hs] at he
          rw [seenAfter_cons_seen hig3 hm hs]
          exact ih he
        · rw [uniqueAux_cons_new hig3 hm hs] at he
          rw [seenAfter_cons_new hig3 hm hs]
          rcases List.mem_cons.mp he with rfl | he2
          · exact ⟨pn, hm, seenAfter_mono (List.mem_cons_self _ _)⟩
          · exact ih he2

theorem uniqueAux_all_seen {seen : List String} {zs : List String}
    (h : ∀ e ∈ zs, ignoreEntry e = false ∧
      ∃ pn, cron_entry_fullmatch e = some pn ∧ pn.2 ∈ seen) :
    uniqueEntriesAux seen zs = [] ∧ seenAfter seen zs = seen := by
  induction zs with
  | nil => exact ⟨rfl, rfl⟩
  | cons e rest ih =>
    obtain ⟨hig, pn, hm, hs⟩ := h e (List.mem_cons_self _ _)
    rw [uniqueAux_cons_seen hig hm hs, seenAfter_cons_seen hig hm hs]
    exact ih (fun e2 he2 => h e2 (List.mem_cons_of_mem _ he2))

theorem uniqueAux_fixpoint {seen : List String} {zs : List String}
    (h : ∀ e ∈ zs, ignoreEntry e = false ∧ ∃ pn, cron_entry_fullmatch e = some pn)
    (hnd : (zs.filterMap nameOfEntry).Nodup)
    (hdisj : ∀ nm ∈ zs.filterMap nameOfEntry, nm ∉ seen) :
    uniqueEntriesAux seen zs = zs := by
  induction zs generalizing seen with
  | nil => rfl
  | cons e rest ih =>
    obtain ⟨hig, pn, hm⟩ := h e (List.mem_cons_self _ _)
    have hname : nameOfEntry e = some pn.2 := by simp [nameOfEntry, hm]
    have hfm : (e :: rest).filterMap nameOfEntry = pn.2 :: rest.filterMap nameOfEntry := by
      rw [List.filterMap_cons]
      simp [hname]
    rw [hfm] at hnd hdisj
    have hnotin : pn.2 ∉ seen := hdisj pn.2 (List.mem_cons_self _ _)
    rw [uniqueAux_cons_new hig hm hnotin]
    congr 1
    apply ih (fun e2 he2 => h e2 (List.mem_cons_of_mem _ he2)) ((List.nodup_cons.mp hnd).2)
    intro nm hnm hmem
    rcases List.mem_cons.mp hmem with rfl | hmem2
    · exact (List.nodup_cons.mp hnd).1 hnm
    · exact hdisj nm (List.mem_cons_of_mem _ hnm) hmem2

theorem uniqueAux_sublist (seen : List String) (xs : List String) :
    List.Sublist (uniqueEntriesAux seen xs) xs := by
  induction xs generalizing seen with
  | nil => simp [uniqueEntriesAux]
  | cons e rest ih =>
    by_cases hig : ignoreEntry e = true
    · rw [uniqueAux_cons_ignore hig]
      exact List.Sublist.cons₂ e (ih seen)
    · have hig2 : ignoreEntry e = false := by simpa using hig
      cases hm : cron_entry_fullmatch e with
      | none =>
        rw [uniqueAux_cons_none hig2 hm]
        exact List.Sublist.cons e (ih seen)
      | some pn =>
        by_cases hs : pn.2 ∈ seen
        · rw [uniqueAux_cons_seen hig2 hm hs]
          exact List.Sublist.cons e (ih seen)
        · rw [uniqueAux_cons_new hig2 hm hs]
          exact List.Sublist.cons₂ e (ih (pn.2 :: seen))

theorem uniqueAux_output_names {seen : List String} {xs : List String} :
    (∀ e ∈ (uniqueEntriesAux seen xs).filter (fun l => !(ignoreEntry l)),
      ∃ pn, cron_entry_fullmatch e = some pn) ∧
    (((uniqueEntriesAux seen xs).filter (fun l => !(ignoreEntry l))).filterMap
      nameOfEntry).Nodup ∧
    (∀ nm ∈ ((uniqueEntriesAux seen xs).filter (fun l => !(ignoreEntry l))).filterMap
      nameOfEntry, nm ∉ seen) := by
  induction xs generalizing seen with
  | nil => simp [uniqueEntriesAux]
  | cons e rest ih =>
    by_cases hig : ignoreEntry e = true
    · rw [uniqueAux_cons_ignore hig, List.filter_cons]
      simp only [hig, Bool.not_true, Bool.false_eq_true, if_false]
      exact ih
    · have hig2 : ignoreEntry e = false := by simpa using hig
      cases hm : cron_entry_fullmatch e with
      | none =>
        rw [uniqueAux_cons_none hig2 hm]
        exact ih
      | some pn =>
        by_cases hs : pn.2 ∈ seen
        · rw [uniqueAux_cons_seen hig2 hm hs]
          exact ih
        · rw [uniqueAux_cons_new hig2 hm hs, List.filter_cons]
          simp only [hig2, Bool.not_false, if_true]
          have hname : nameOfEntry e = some pn.2 := by simp [nameOfEntry, hm]
          have hfm : ∀ zs : List String, (e :: zs).filterMap nameOfEntry =
              pn.2 :: zs.filterMap nameOfEntry := by
            intro zs
            rw [List.filterMap_cons]
            simp [hname]
          obtain ⟨iha, ihb, ihc⟩ := @ih (pn.2 :: seen)
          refine ⟨?_, ?_, ?_⟩
          · intro e2 he2
            rcases List.mem_cons.mp he2 with rfl | he3
            · exact ⟨pn, hm⟩
            · exact iha e2 he3
          · rw [hfm]
            rw [List.nodup_cons]
            exact ⟨fun hmem => ihc pn.2 hmem (List.mem_cons_self _ _), ihb⟩
          · rw [hfm]
            intro nm hnm hmem
            rcases List.mem_cons.mp hnm with rfl | hnm2
            · exact hs hmem
            · exact ihc nm hnm2 (List.mem_cons_of_mem _ hmem)

theorem unique_restart (new old : List String)
    (hold : ∀ e ∈ old, ignoreEntry e = false) :
    uniqueEntries (new ++ (uniqueEntries (new ++ old)).filter (fun l => !(ignoreEntry l))) =
      uniqueEntries (new ++ old) := by
  unfold uniqueEntries
  have hro : uniqueEntriesAux [] (new ++ old) =
      uniqueEntriesAux [] new ++ uniqueEntriesAux (seenAfter [] new) old :=
    uniqueAux_append [] new old
  have hF2eq : (uniqueEntriesAux (seenAfter [] new) old).filter (fun l => !(ignoreEntry l)) =
      uniqueEntriesAux (seenAfter [] new) old := by
    apply List.filter_eq_self.mpr
    intro e he
    have hmem : e ∈ old := (uniqueAux_sublist _ _).subset he
    simp [hold e hmem]
  have hstep : uniqueEntriesAux [] (new ++
      (uniqueEntriesAux [] (new ++ old)).filter (fun l => !(ignoreEntry l))) =
      uniqueEntriesAux [] new ++ uniqueEntriesAux (seenAfter [] new)
        ((uniqueEntriesAux [] (new ++ old)).filter (fun l => !(ignoreEntry l))) :=
    uniqueAux_append [] new _
  rw [hstep, hro]
  congr 1
  rw [List.filter_append, hF2eq]
  have hF1seen : ∀ e ∈ (uniqueEntriesAux [] new).filter (fun l => !(ignoreEntry l)),
      ignoreEntry e = false ∧ ∃ pn, cron_entry_fullmatch e = some pn ∧
        pn.2 ∈ seenAfter [] new := by
    intro e he
    have h1 := List.mem_filter.mp he
    have hig : ignoreEntry e = false := by simpa using h1.2
    obtain ⟨pn, hm, hsn⟩ := uniqueAux_mem_name h1.1 hig
    exact ⟨hig, pn, hm, hsn⟩
  obtain ⟨hz, hsseen⟩ := uniqueAux_all_seen hF1seen
  rw [uniqueAux_append (seenAfter [] new) _ _, hz, hsseen]
  simp only [List.nil_append]
  obtain ⟨ha, hb, hc⟩ := @uniqueAux_output_names (seenAfter [] new) old
  rw [hF2eq] at ha hb hc
  apply uniqueAux_fixpoint
  · intro e he
    have hmem : e ∈ old := (uniqueAux_sublist _ _).subset he
    exact ⟨hold e hmem, ha e he⟩
  · exact hb
  · exact hc

end CronExt

namespace CronExt

theorem entriesOf_nonignored (lines : List String) :
    ∀ e ∈ entriesOf lines, ignoreEntry e = false := by
  intro e he
  unfold entriesOf at he
  cases hf : findSectionU lines with
  | none => rw [hf] at he; cases he
  | some ab =>
    rw [hf] at he
    have h2 := (List.mem_filter.mp he).2
    simpa using h2

theorem no_begin_of_none {lines : List String}
    (hfind : findSectionU lines = none)
    (h : hasEndU lines = true ∨ hasBeginU lines = false) :
    ∀ l ∈ lines, sectionMarkerU "BEGIN" l = false := by
  have hnb : hasBeginU lines = false := by
    rcases h with hE | hB
    · by_cases hB2 : hasBeginU lines = true
      · have := findSectionU_isSome_of lines hB2 hE
        rw [hfind] at this
        cases this
      · simpa using hB2
    · exact hB
  intro l hl
  by_cases hp : sectionMarkerU "BEGIN" l = true
  · have : hasBeginU lines = true := List.any_eq_true.mpr ⟨l, hl, hp⟩
    rw [hnb] at this
    cases this
  · simpa using hp

theorem installEntries_twice (new lines : List String)
    (h : hasEndU lines = true ∨ hasBeginU lines = false) :
    installEntries new (installEntries new lines) = installEntries new lines := by
  unfold installEntries
  have hE0 : ∀ e ∈ entriesOf lines, ignoreEntry e = false := entriesOf_nonignored lines
  cases hfind : findSectionU lines with
  | some ab =>
    obtain ⟨a, b⟩ := ab
    obtain ⟨hfind1, hent1, hset1⟩ :=
      setEntries_stable hfind (uniqueEntries (new ++ entriesOf lines))
    rw [hent1, unique_restart new (entriesOf lines) hE0,
      hset1 (uniqueEntries (new ++ entriesOf lines)),
      setEntries_found hfind (uniqueEntries (new ++ entriesOf lines))]
  | none =>
    have hnb := no_begin_of_none hfind h
    obtain ⟨hent1, hset1⟩ :=
      setEntries_absent_stable hfind hnb (uniqueEntries (new ++ entriesOf lines))
    rw [hent1, unique_restart new (entriesOf lines) hE0,
      hset1 (uniqueEntries (new ++ entriesOf lines)),
      setEntries_absent hfind (uniqueEntries (new ++ entriesOf lines))]

end CronExt

namespace CronExt

theorem findGreatestB_spec (p : Nat → Bool) {m n : Nat} (hmn : m ≤ n) (hm : p m = true) :
    p (Nat.findGreatest (fun i => p i = true) n) = true :=
  @Nat.findGreatest_spec m (fun i => p i = true) _ n hmn hm

theorem findGreatestB_le (p : Nat → Bool) (n : Nat) :
    Nat.findGreatest (fun i => p i = true) n ≤ n :=
  @Nat.findGreatest_le (fun i => p i = true) _ n

theorem findGreatestB_le_of (p : Nat → Bool) {m n : Nat} (hmn : m ≤ n) (hm : p m = true) :
    m ≤ Nat.findGreatest (fun i => p i = true) n :=
  @Nat.le_findGreatest m (fun i => p i = true) _ n hmn hm

theorem chAt_lt {cs : List Char} {i : Nat} {c : Char} (h : chAt cs i = c) (hc : c ≠ ' ') :
    i < cs.length := by
  by_contra hge
  have hge2 : cs.length ≤ i := by omega
  rw [chAt, List.getD_eq_default _ _ hge2] at h
  exact hc h.symm

theorem jMax_some {cs : List Char} {k j : Nat} (h : jMax cs k = some j) :
    entryEndPred cs k j = true ∧ ∀ j2, entryEndPred cs k j2 = true → j2 ≤ j := by
  unfold jMax at h
  split at h
  · rename_i hp
    cases h
    refine ⟨hp, fun j2 hj2 => ?_⟩
    have hquote : chAt cs j2 = '\'' := by
      have := hj2
      unfold entryEndPred shEndAt at this
      simp only [Bool.and_eq_true, beq_iff_eq] at this
      exact this.2.1.1.1
    have hlt : j2 < cs.length := chAt_lt hquote (by decide)
    exact findGreatestB_le_of (fun j => entryEndPred cs k j) (Nat.le_of_lt hlt) hj2
  · cases h

theorem jMax_none {cs : List Char} {k : Nat} (h : jMax cs k = none) :
    ∀ j, entryEndPred cs k j = false := by
  intro j
  by_cases hj : entryEndPred cs k j = true
  · exfalso
    have hquote : chAt cs j = '\'' := by
      unfold entryEndPred shEndAt at hj
      simp only [Bool.and_eq_true, beq_iff_eq] at hj
      exact hj.2.1.1.1
    have hlt : j < cs.length := chAt_lt hquote (by decide)
    have hspec := findGreatestB_spec (fun j => entryEndPred cs k j) (Nat.le_of_lt hlt) hj
    unfold jMax at h
    split at h
    · cases h
    · rename_i hnp
      exact hnp hspec
  · simpa using hj

theorem jMax_isSome_of {cs : List Char} {k j : Nat} (h : entryEndPred cs k j = true) :
    (jMax cs k).isSome = true := by
  cases hj : jMax cs k with
  | some j2 => rfl
  | none =>
    have := jMax_none hj j
    rw [h] at this
    cases this

theorem qMax_spec {cs : List Char} {k j q0 : Nat}
    (h0 : slashPred cs k q0 = true) (hq0 : q0 ≤ j - 4) :
    slashPred cs k (qMax cs k j) = true ∧ qMax cs k j ≤ j - 4 ∧
      ∀ q2, slashPred cs k q2 = true → q2 ≤ j - 4 → q2 ≤ qMax cs k j := by
  unfold qMax
  refine ⟨findGreatestB_spec (fun q => slashPred cs k q) hq0 h0,
    findGreatestB_le (fun q => slashPred cs k q) _, fun q2 h2 hle => ?_⟩
  exact findGreatestB_le_of (fun q => slashPred cs k q) hle h2

theorem entryEndPred_elim {cs : List Char} {k j : Nat} (h : entryEndPred cs k j = true) :
    k + 5 ≤ j ∧ chAt cs j = '\'' ∧ chAt cs (j - 3) = '.' ∧
      sLike (chAt cs (j - 2)) = true ∧ hLike (chAt cs (j - 1)) = true := by
  unfold entryEndPred shEndAt at h
  simp only [Bool.and_eq_true, beq_iff_eq, decide_eq_true_eq] at h
  exact ⟨h.1, h.2.1.1.1, h.2.1.1.2, h.2.1.2, h.2.2⟩

theorem entryEndPred_intro {cs : List Char} {k j : Nat} (h1 : k + 5 ≤ j)
    (h2 : chAt cs j = '\'') (h3 : chAt cs (j - 3) = '.')
    (h4 : sLike (chAt cs (j - 2)) = true) (h5 : hLike (chAt cs (j - 1)) = true) :
    entryEndPred cs k j = true := by
  unfold entryEndPred shEndAt
  simp only [Bool.and_eq_true, beq_iff_eq, decide_eq_true_eq]
  exact ⟨h1, ⟨⟨⟨h2, h3⟩, h4⟩, h5⟩⟩

theorem slashPred_elim {cs : List Char} {k q : Nat} (h : slashPred cs k q = true) :
    k + 1 ≤ q ∧ chAt cs q = '/' := by
  unfold slashPred at h
  simp only [Bool.and_eq_true, beq_iff_eq, decide_eq_true_eq] at h
  exact h

theorem slashPred_intro {cs : List Char} {k q : Nat} (h1 : k + 1 ≤ q)
    (h2 : chAt cs q = '/') : slashPred cs k q = true := by
  unfold slashPred
  simp only [Bool.and_eq_true, beq_iff_eq, decide_eq_true_eq]
  exact ⟨h1, h2⟩

theorem entryKeyPredA_elim {cs : List Char} {k : Nat} (h : entryKeyPredA cs k = true) :
    1 ≤ k ∧ chAt cs k = '\'' ∧ chAt cs (k + 1) = '/' ∧ (jMax cs k).isSome = true := by
  unfold entryKeyPredA at h
  simp only [Bool.and_eq_true, beq_iff_eq, decide_eq_true_eq] at h
  exact ⟨h.1.1.1, h.1.1.2, h.1.2, h.2⟩

theorem entryKeyPredA_intro {cs : List Char} {k : Nat} (h1 : 1 ≤ k)
    (h2 : chAt cs k = '\'') (h3 : chAt cs (k + 1) = '/')
    (h4 : (jMax cs k).isSome = true) : entryKeyPredA cs k = true := by
  unfold entryKeyPredA
  simp only [Bool.and_eq_true, beq_iff_eq, decide_eq_true_eq]
  exact ⟨⟨⟨h1, h2⟩, h3⟩, h4⟩

theorem entryKeyPredB_elim {cs : List Char} {k : Nat} (h : entryKeyPredB cs k = true) :
    1 ≤ k ∧ chAt cs k = '\'' ∧
      ∃ j, jMax cs k = some j ∧ slashPred cs k (qMax cs k j) = true := by
  unfold entryKeyPredB at h
  simp only [Bool.and_eq_true, beq_iff_eq, decide_eq_true_eq] at h
  refine ⟨h.1.1, h.1.2, ?_⟩
  obtain ⟨⟨h1, h2⟩, h3⟩ := h
  cases hj : jMax cs k with
  | none => rw [hj] at h3; cases h3
  | some j => rw [hj] at h3; exact ⟨j, rfl, h3⟩

theorem entryKeyPredB_intro {cs : List Char} {k j : Nat} (h1 : 1 ≤ k)
    (h2 : chAt cs k = '\'') (h3 : jMax cs k = some j)
    (h4 : slashPred cs k (qMax cs k j) = true) : entryKeyPredB cs k = true := by
  unfold entryKeyPredB
  simp only [Bool.and_eq_true, beq_iff_eq, decide_eq_true_eq, h3]
  exact ⟨⟨h1, h2⟩, h4⟩

end CronExt

namespace CronExt

theorem chAt_eq_getElem {cs : List Char} {i : Nat} (h : i < cs.length) :
    chAt cs i = cs[i] :=
  List.getD_eq_getElem cs ' ' h

theorem chAt_append_cons (xs ys : List Char) (c : Char) :
    chAt (xs ++ c :: ys) xs.length = c := by
  unfold chAt
  rw [List.getD_append_right xs (c :: ys) ' ' xs.length (Nat.le_refl _)]
  simp

theorem chAt_append_right (xs ys : List Char) (i : Nat) :
    chAt (xs ++ ys) (xs.length + i) = chAt ys i := by
  unfold chAt
  rw [List.getD_append_right xs ys ' ' (xs.length + i) (Nat.le_add_right _ _)]
  congr 1
  omega

theorem chAt_append_left {xs : List Char} (ys : List Char) {i : Nat} (h : i < xs.length) :
    chAt (xs ++ ys) i = chAt xs i := by
  unfold chAt
  exact List.getD_append xs ys ' ' i h

theorem chAt_take {cs : List Char} {j i : Nat} (hij : i < j) (hi : i < cs.length) :
    chAt (cs.take j) i = chAt cs i := by
  have h1 : i < (cs.take j).length := by
    simp [List.length_take]
    omega
  rw [chAt_eq_getElem h1, chAt_eq_getElem hi]
  exact List.getElem_take cs

theorem take_length_of_le {α : Type} {l : List α} {j : Nat} (h : j ≤ l.length) :
    (l.take j).length = j := by
  simp [List.length_take]
  omega

theorem entry_decomp {cs : List Char} {k j : Nat}
    (hk : k < cs.length) (hj : j < cs.length) (hkj : k + 1 ≤ j) :
    cs = cs.take k ++ chAt cs k :: (pathSlice cs k j ++ chAt cs j :: cs.drop (j + 1)) := by
  have hdropk : cs.drop k = chAt cs k :: cs.drop (k + 1) := by
    rw [chAt_eq_getElem hk]
    exact List.drop_eq_getElem_cons hk
  have hdropk1 : cs.drop (k + 1) = pathSlice cs k j ++ cs.drop j := by
    have hsplit : cs.drop (k + 1) = ((cs.take j) ++ cs.drop j).drop (k + 1) := by
      rw [List.take_append_drop]
    have hlen : k + 1 ≤ (cs.take j).length := by
      rw [take_length_of_le (Nat.le_of_lt hj)]
      omega
    rw [hsplit, List.drop_append_of_le_length hlen]
    rfl
  have hdropj : cs.drop j = chAt cs j :: cs.drop (j + 1) := by
    rw [chAt_eq_getElem hj]
    exact List.drop_eq_getElem_cons hj
  conv_lhs => rw [← List.take_append_drop k cs]
  rw [hdropk, hdropk1, hdropj]

theorem path_decomp {cs : List Char} {k j q : Nat}
    (hj : j ≤ cs.length) (hkq : k + 1 ≤ q) (hqj : q + 4 ≤ j) :
    pathSlice cs k j = (cs.take q).drop (k + 1) ++ chAt cs q ::
      (nameSlice cs q j ++ [chAt cs (j - 3), chAt cs (j - 2), chAt cs (j - 1)]) := by
  have hlenD : (cs.take j).length = j := take_length_of_le hj
  have hqlen : q < cs.length := by omega
  have hstep1 : (cs.take j).drop (k + 1) =
      ((cs.take j).take q).drop (k + 1) ++ (cs.take j).drop q := by
    have hsplit : (cs.take j).drop (k + 1) =
        (((cs.take j).take q) ++ (cs.take j).drop q).drop (k + 1) := by
      rw [List.take_append_drop]
    have hlen : k + 1 ≤ ((cs.take j).take q).length := by
      rw [List.take_take]
      rw [take_length_of_le (by omega : min q j ≤ cs.length)]
      omega
    rw [hsplit, List.drop_append_of_le_length hlen]
  have htq : (cs.take j).take q = cs.take q := by
    rw [List.take_take]
    congr 1
    omega
  have hstep2 : (cs.take j).drop q = chAt cs q :: (cs.take j).drop (q + 1) := by
    have hqD : q < (cs.take j).length := by omega
    rw [List.drop_eq_getElem_cons hqD]
    congr 1
    rw [← chAt_eq_getElem hqD]
    exact chAt_take (by omega) hqlen
  have hstep3 : (cs.take j).drop (q + 1) =
      ((cs.take j).take (j - 3)).drop (q + 1) ++ (cs.take j).drop (j - 3) := by
    have hsplit : (cs.take j).drop (q + 1) =
        (((cs.take j).take (j - 3)) ++ (cs.take j).drop (j - 3)).drop (q + 1) := by
      rw [List.take_append_drop]
    have hlen : q + 1 ≤ ((cs.take j).take (j - 3)).length := by
      rw [List.take_take]
      rw [take_length_of_le (by omega : min (j - 3) j ≤ cs.length)]
      omega
    rw [hsplit, List.drop_append_of_le_length hlen]
  have htq3 : (cs.take j).take (j - 3) = cs.take (j - 3) := by
    rw [List.take_take]
    congr 1
    omega
  have hchar : ∀ x : Nat, j - 3 ≤ x → x < j → (cs.take j).drop x =
      chAt cs x :: (cs.take j).drop (x + 1) := by
    intro x _ hxj
    have hxD : x < (cs.take j).length := by omega
    rw [List.drop_eq_getElem_cons hxD]
    congr 1
    rw [← chAt_eq_getElem hxD]
    exact chAt_take hxj (by omega)
  have hstep4 : (cs.take j).drop (j - 3) =
      [chAt cs (j - 3), chAt cs (j - 2), chAt cs (j - 1)] := by
    have hdrop_end : (cs.take j).drop j = [] := by
      apply List.drop_eq_nil_of_le
      omega
    have e1 := hchar (j - 3) (Nat.le_refl _) (by omega)
    have e2 := hchar (j - 2) (by omega) (by omega)
    have e3 := hchar (j - 1) (by omega) (by omega)
    have h32 : j - 3 + 1 = j - 2 := by omega
    have h21 : j - 2 + 1 = j - 1 := by omega
    have h10 : j - 1 + 1 = j := by omega
    rw [e1, h32, e2, h21, e3, h10, hdrop_end]
  show (cs.take j).drop (k + 1) = _
  rw [hstep1, htq, hstep2, hstep3, htq3, hstep4]
  rfl

end CronExt

namespace CronExt

theorem matchAData_eq {cs : List Char} {k j : Nat} (hnl : nlFree cs = true)
    (hfs : firstSuch (entryKeyPredA cs) cs.length = some k) (hj : jMax cs k = some j) :
    matchAData cs = some (pathSlice cs k j, nameSlice cs (qMax cs k j) j) := by
  unfold matchAData
  rw [hnl, if_pos rfl, hfs]
  dsimp only []
  rw [hj]

theorem matchBData_eq {cs : List Char} {k j : Nat} (hnl : nlFree cs = true)
    (hfs : firstSuch (entryKeyPredB cs) cs.length = some k) (hj : jMax cs k = some j) :
    matchBData cs = some (pathSlice cs k j, nameSlice cs (qMax cs k j) j) := by
  unfold matchBData
  rw [hnl, if_pos rfl, hfs]
  dsimp only []
  rw [hj]

theorem matchAData_some {cs : List Char} {p nm : List Char}
    (h : matchAData cs = some (p, nm)) :
    ∃ k j, nlFree cs = true ∧ entryKeyPredA cs k = true ∧ jMax cs k = some j ∧
      p = pathSlice cs k j ∧ nm = nameSlice cs (qMax cs k j) j ∧
      firstSuch (entryKeyPredA cs) cs.length = some k := by
  unfold matchAData at h
  split at h
  · rename_i hnl
    cases hfs : firstSuch (entryKeyPredA cs) cs.length with
    | none => rw [hfs] at h; cases h
    | some k =>
      rw [hfs] at h
      dsimp only [] at h
      cases hjm : jMax cs k with
      | none => rw [hjm] at h; cases h
      | some j =>
        rw [hjm] at h
        obtain ⟨hp, hn⟩ := Prod.mk.injEq _ _ _ _ ▸ Option.some_inj.mp h
        exact ⟨k, j, hnl, (firstSuch_some hfs).1, hjm, hp.symm, hn.symm, rfl⟩
  · cases h

theorem matchBData_some {cs : List Char} {p nm : List Char}
    (h : matchBData cs = some (p, nm)) :
    ∃ k j, nlFree cs = true ∧ entryKeyPredB cs k = true ∧ jMax cs k = some j ∧
      p = pathSlice cs k j ∧ nm = nameSlice cs (qMax cs k j) j ∧
      firstSuch (entryKeyPredB cs) cs.length = some k := by
  unfold matchBData at h
  split at h
  · rename_i hnl
    cases hfs : firstSuch (entryKeyPredB cs) cs.length with
    | none => rw [hfs] at h; cases h
    | some k =>
      rw [hfs] at h
      dsimp only [] at h
      cases hjm : jMax cs k with
      | none => rw [hjm] at h; cases h
      | some j =>
        rw [hjm] at h
        obtain ⟨hp, hn⟩ := Prod.mk.injEq _ _ _ _ ▸ Option.some_inj.mp h
        exact ⟨k, j, hnl, (firstSuch_some hfs).1, hjm, hp.symm, hn.symm, rfl⟩
  · cases h

theorem matchAData_isSome_intro {cs : List Char} {k : Nat}
    (hnl : nlFree cs = true) (hk : entryKeyPredA cs k = true) :
    ∃ p nm, matchAData cs = some (p, nm) := by
  have hklen : k < cs.length := chAt_lt (entryKeyPredA_elim hk).2.1 (by decide)
  have hfs : (firstSuch (entryKeyPredA cs) cs.length).isSome = true :=
    firstSuch_isSome hklen hk
  obtain ⟨k2, hk2⟩ := Option.isSome_iff_exists.mp hfs
  have hpred2 := (firstSuch_some hk2).1
  obtain ⟨j2, hj2⟩ := Option.isSome_iff_exists.mp (entryKeyPredA_elim hpred2).2.2.2
  exact ⟨_, _, matchAData_eq hnl hk2 hj2⟩

theorem matchBData_isSome_intro {cs : List Char} {k : Nat}
    (hnl : nlFree cs = true) (hk : entryKeyPredB cs k = true) :
    ∃ p nm, matchBData cs = some (p, nm) := by
  have hklen : k < cs.length := chAt_lt (entryKeyPredB_elim hk).2.1 (by decide)
  have hfs : (firstSuch (entryKeyPredB cs) cs.length).isSome = true :=
    firstSuch_isSome hklen hk
  obtain ⟨k2, hk2⟩ := Option.isSome_iff_exists.mp hfs
  have hpred2 := (firstSuch_some hk2).1
  obtain ⟨j2, hj2, _⟩ := (entryKeyPredB_elim hpred2).2.2
  exact ⟨_, _, matchBData_eq hnl hk2 hj2⟩

end CronExt

namespace CronExt

theorem nameSlice_no_slash {cs : List Char} {k j : Nat}
    (hj : j ≤ cs.length)
    (hgr : ∀ q2, slashPred cs k q2 = true → q2 ≤ j - 4 → q2 ≤ qMax cs k j)
    (hq1 : k + 1 ≤ qMax cs k j) (hq4 : qMax cs k j + 4 ≤ j) :
    (nameSlice cs (qMax cs k j) j).all (fun c => !(c == '/')) = true := by
  rw [List.all_eq_true]
  intro c hc
  obtain ⟨i, hi, hci⟩ := List.mem_iff_getElem.mp hc
  have hlen3 : (cs.take (j - 3)).length = j - 3 := take_length_of_le (by omega)
  have hlenn : (nameSlice cs (qMax cs k j) j).length = j - 3 - (qMax cs k j + 1) := by
    unfold nameSlice
    rw [List.length_drop, hlen3]
  have hpos : qMax cs k j + 1 + i ≤ j - 4 := by omega
  have hilt : qMax cs k j + 1 + i < cs.length := by omega
  have hgetn : (nameSlice cs (qMax cs k j) j)[i] = cs[qMax cs k j + 1 + i] := by
    unfold nameSlice
    rw [List.getElem_drop]
    exact List.getElem_take cs
  have hchar : chAt cs (qMax cs k j + 1 + i) = c := by
    rw [chAt_eq_getElem hilt, ← hgetn, hci]
  by_cases hslash : c = '/'
  · exfalso
    have hsp : slashPred cs k (qMax cs k j + 1 + i) = true :=
      slashPred_intro (by omega) (hslash ▸ hchar)
    have := hgr _ hsp hpos
    omega
  · simpa using hslash

theorem matchA_captures {cs p nm : List Char}
    (h : matchAData cs = some (p, nm)) :
    nlFree cs = true ∧
    ∃ pre post d c1 c2,
      cs = pre ++ '\'' :: (p ++ '\'' :: post) ∧ pre ≠ [] ∧
      p = d ++ '/' :: (nm ++ ['.', c1, c2]) ∧
      (d = [] ∨ ∃ d2, d = '/' :: d2) ∧ sLike c1 = true ∧ hLike c2 = true ∧
      nm.all (fun c => !(c == '/')) = true := by
  obtain ⟨k, j, hnl, hpred, hjm, hp, hnm, hfs⟩ := matchAData_some h
  obtain ⟨hk1, hquote, hslash, _⟩ := entryKeyPredA_elim hpred
  obtain ⟨hend, hjgr⟩ := jMax_some hjm
  obtain ⟨hkj, hquoteJ, hdot, hc1, hc2⟩ := entryEndPred_elim hend
  have hklen : k < cs.length := chAt_lt hquote (by decide)
  have hjlen : j < cs.length := chAt_lt hquoteJ (by decide)
  obtain ⟨hqs, hqle, hqgr⟩ :=
    qMax_spec (slashPred_intro (Nat.le_refl (k + 1)) hslash) (by omega : k + 1 ≤ j - 4)
  obtain ⟨hq1, hqslash⟩ := slashPred_elim hqs
  have hdec := entry_decomp hklen hjlen (by omega)
  have hpdec := path_decomp (Nat.le_of_lt hjlen) hq1 (by omega)
  refine ⟨hnl, cs.take k, cs.drop (j + 1), (cs.take (qMax cs k j)).drop (k + 1),
    chAt cs (j - 2), chAt cs (j - 1), ?_, ?_, ?_, ?_, hc1, hc2, ?_⟩
  · rw [hquote, hquoteJ] at hdec
    rw [hp]
    exact hdec
  · intro hnil
    have := congrArg List.length hnil
    rw [take_length_of_le (Nat.le_of_lt hklen)] at this
    simp at this
    omega
  · rw [hqslash, hdot] at hpdec
    rw [hp, hnm]
    exact hpdec
  · by_cases hq : qMax cs k j = k + 1
    · left
      rw [hq]
      apply List.drop_eq_nil_of_le
      rw [take_length_of_le (by omega)]
    · right
      have hlt : k + 1 < (cs.take (qMax cs k j)).length := by
        rw [take_length_of_le (by omega)]
        omega
      refine ⟨(cs.take (qMax cs k j)).drop (k + 2), ?_⟩
      have hd := List.drop_eq_getElem_cons hlt
      rw [hd]
      congr 1
      rw [← chAt_eq_getElem hlt, chAt_take (by omega) (by omega)]
      exact hslash
  · rw [hnm]
    exact nameSlice_no_slash (Nat.le_of_lt hjlen) hqgr hq1 (by omega)

end CronExt

namespace CronExt

theorem matchA_of_shape {cs pre p post d nmL : List Char} {c1 c2 : Char}
    (hcs : cs = pre ++ '\'' :: (p ++ '\'' :: post)) (hpre : pre ≠ [])
    (hp : p = d ++ '/' :: (nmL ++ ['.', c1, c2]))
    (hd : d = [] ∨ ∃ d2, d = '/' :: d2)
    (hc1 : sLike c1 = true) (hc2 : hLike c2 = true)
    (hnl : nlFree cs = true) :
    ∃ pr n, matchAData cs = some (pr, n) := by
  have hplen : p.length = d.length + 1 + (nmL.length + 3) := by
    rw [hp]
    simp only [List.length_append, List.length_cons, List.length_nil]
    omega
  have hk1 : 1 ≤ pre.length := by
    cases pre with
    | nil => exact absurd rfl hpre
    | cons a t => simp
  have hquote : chAt cs pre.length = '\'' := by
    rw [hcs]
    exact chAt_append_cons pre _ _
  have hphead : ∃ ptail, p = '/' :: ptail := by
    rcases hd with rfl | ⟨d2, rfl⟩
    · exact ⟨nmL ++ ['.', c1, c2], by simpa using hp⟩
    · exact ⟨d2 ++ '/' :: (nmL ++ ['.', c1, c2]), by simpa using hp⟩
  obtain ⟨ptail, hptail⟩ := hphead
  have hslash : chAt cs (pre.length + 1) = '/' := by
    have hflat : cs = (pre ++ ['\'']) ++ '/' :: (ptail ++ '\'' :: post) := by
      rw [hcs, hptail]
      simp
    have h0 := chAt_append_cons (pre ++ ['\'']) (ptail ++ '\'' :: post) '/'
    rw [← hflat] at h0
    simpa using h0
  have hquoteJ : chAt cs (pre.length + 1 + p.length) = '\'' := by
    have hflat : cs = (pre ++ '\'' :: p) ++ '\'' :: post := by
      rw [hcs]
      simp
    have h0 := chAt_append_cons (pre ++ '\'' :: p) post '\''
    rw [← hflat] at h0
    have hlen : (pre ++ '\'' :: p).length = pre.length + 1 + p.length := by
      simp
      omega
    rw [hlen] at h0
    exact h0
  have hdot : chAt cs (pre.length + 1 + p.length - 3) = '.' := by
    have hflat : cs = (pre ++ '\'' :: (d ++ '/' :: nmL)) ++ '.' ::
        (c1 :: c2 :: '\'' :: post) := by
      rw [hcs, hp]
      simp
    have h0 := chAt_append_cons (pre ++ '\'' :: (d ++ '/' :: nmL))
      (c1 :: c2 :: '\'' :: post) '.'
    rw [← hflat] at h0
    have hlen : (pre ++ '\'' :: (d ++ '/' :: nmL)).length =
        pre.length + 1 + p.length - 3 := by
      simp
      omega
    rw [hlen] at h0
    exact h0
  have hch1 : chAt cs (pre.length + 1 + p.length - 2) = c1 := by
    have hflat : cs = (pre ++ '\'' :: (d ++ '/' :: nmL) ++ ['.']) ++ c1 ::
        (c2 :: '\'' :: post) := by
      rw [hcs, hp]
      simp
    have h0 := chAt_append_cons (pre ++ '\'' :: (d ++ '/' :: nmL) ++ ['.'])
      (c2 :: '\'' :: post) c1
    rw [← hflat] at h0
    have hlen : (pre ++ '\'' :: (d ++ '/' :: nmL) ++ ['.']).length =
        pre.length + 1 + p.length - 2 := by
      simp
      omega
    rw [hlen] at h0
    exact h0
  have hch2 : chAt cs (pre.length + 1 + p.length - 1) = c2 := by
    have hflat : cs = (pre ++ '\'' :: (d ++ '/' :: nmL) ++ ['.', c1]) ++ c2 ::
        ('\'' :: post) := by
      rw [hcs, hp]
      simp
    have h0 := chAt_append_cons (pre ++ '\'' :: (d ++ '/' :: nmL) ++ ['.', c1])
      ('\'' :: post) c2
    rw [← hflat] at h0
    have hlen : (pre ++ '\'' :: (d ++ '/' :: nmL) ++ ['.', c1]).length =
        pre.length + 1 + p.length - 1 := by
      simp
      omega
    rw [hlen] at h0
    exact h0
  have hend : entryEndPred cs pre.length (pre.length + 1 + p.length) = true := by
    apply entryEndPred_intro (by omega) hquoteJ hdot
    · rw [hch1]
      exact hc1
    · rw [hch2]
      exact hc2
  exact matchAData_isSome_intro hnl
    (entryKeyPredA_intro hk1 hquote hslash (jMax_isSome_of hend))

end CronExt

namespace CronExt

theorem matchB_of_matchA {cs p nm : List Char} (h : matchAData cs = some (p, nm)) :
    ∃ p2, matchBData cs = some (p2, nm) ∧ p <:+ p2 := by
  obtain ⟨k, j, hnl, hpred, hjm, hp, hnm, hfs⟩ := matchAData_some h
  obtain ⟨hk1, hquote, hslash, _⟩ := entryKeyPredA_elim hpred
  obtain ⟨hend, hjgr⟩ := jMax_some hjm
  obtain ⟨hkj, hquoteJ, hdot, hc1, hc2⟩ := entryEndPred_elim hend
  obtain ⟨hqsA1, hqleA, hqgrA⟩ :=
    qMax_spec (slashPred_intro (Nat.le_refl (k + 1)) hslash) (by omega : k + 1 ≤ j - 4)
  have hpredBk : entryKeyPredB cs k = true := entryKeyPredB_intro hk1 hquote hjm hqsA1
  have hklen : k < cs.length := chAt_lt hquote (by decide)
  have hfsB : (firstSuch (entryKeyPredB cs) cs.length).isSome = true :=
    firstSuch_isSome hklen hpredBk
  obtain ⟨k2, hk2⟩ := Option.isSome_iff_exists.mp hfsB
  obtain ⟨hpredB2, hk2len, hk2min⟩ := firstSuch_some hk2
  have hk2le : k2 ≤ k := by
    by_contra hgt
    have hfalse := hk2min k (by omega)
    rw [hpredBk] at hfalse
    cases hfalse
  obtain ⟨hk21, hquote2, j2, hjm2, hqs2⟩ := entryKeyPredB_elim hpredB2
  obtain ⟨hend2, hjgr2⟩ := jMax_some hjm2
  obtain ⟨hk2j2, hquoteJ2, hdot2, hc12, hc22⟩ := entryEndPred_elim hend2
  have hj_le_j2 : j ≤ j2 := hjgr2 j (entryEndPred_intro (by omega) hquoteJ hdot hc1 hc2)
  have hj2_le_j : j2 ≤ j := hjgr j2 (entryEndPred_intro (by omega) hquoteJ2 hdot2 hc12 hc22)
  have hjeq : j2 = j := Nat.le_antisymm hj2_le_j hj_le_j2
  subst hjeq
  have hsA := slashPred_elim hqsA1
  have hspk2qA : slashPred cs k2 (qMax cs k j2) = true := slashPred_intro (by omega) hsA.2
  obtain ⟨hqsB1, hqleB, hqgrB⟩ := qMax_spec hspk2qA hqleA
  have hsB := slashPred_elim hqsB1
  have hqA_le_qB : qMax cs k j2 ≤ qMax cs k2 j2 := hqgrB _ hspk2qA hqleA
  have hspkqB : slashPred cs k (qMax cs k2 j2) = true := slashPred_intro (by omega) hsB.2
  have hqB_le_qA : qMax cs k2 j2 ≤ qMax cs k j2 := hqgrA _ hspkqB hqleB
  have hqeq : qMax cs k2 j2 = qMax cs k j2 := Nat.le_antisymm hqB_le_qA hqA_le_qB
  refine ⟨pathSlice cs k2 j2, ?_, ?_⟩
  · rw [matchBData_eq hnl hk2 hjm2, hqeq, ← hnm]
  · rw [hp]
    unfold pathSlice
    have hdd : (cs.take j2).drop (k + 1) = ((cs.take j2).drop (k2 + 1)).drop (k - k2) := by
      rw [List.drop_drop]
      congr 1
      omega
    rw [hdd]
    exact List.drop_suffix _ _

end CronExt

namespace CronExt

theorem dropWhile_append_of_all {p : Char → Bool} {w : List Char} (r : List Char)
    (hw : ∀ c ∈ w, p c = true) :
    (w ++ r).dropWhile p = r.dropWhile p := by
  induction w with
  | nil => rfl
  | cons c t ih =>
    have hc : p c = true := hw c (List.mem_cons_self _ _)
    show ((c :: (t ++ r)).dropWhile p) = r.dropWhile p
    rw [List.dropWhile_cons, if_pos hc]
    exact ih (fun c2 hc2 => hw c2 (List.mem_cons_of_mem _ hc2))

theorem dropWhile_cons_false {p : Char → Bool} {c : Char} (t : List Char)
    (hc : p c = false) :
    (c :: t).dropWhile p = c :: t := by
  rw [List.dropWhile_cons, hc]
  simp

theorem dropWhile_all_false {p : Char → Bool} {r : List Char}
    (h : ∀ c ∈ r, p c = false) : r.dropWhile p = r := by
  cases r with
  | nil => rfl
  | cons c t => exact dropWhile_cons_false t (h c (List.mem_cons_self _ _))

theorem takeWhile_dropWhile_decomp {p : Char → Bool} {r x : List Char}
    (h : r.dropWhile p = x) :
    r = r.takeWhile p ++ x ∧ ∀ c ∈ r.takeWhile p, p c = true := by
  constructor
  · rw [← h]
    exact (List.takeWhile_append_dropWhile p r).symm
  · intro c hc
    exact List.mem_takeWhile_imp hc

theorem markerTail_intro {w4 d2 w5 : List Char}
    (hw4 : wsList w4) (hd2 : dashList d2) (hw5 : wsList w5) :
    markerTail (w4 ++ d2 ++ w5) = true := by
  obtain ⟨hne, hdash⟩ := hd2
  obtain ⟨c, d2t, rfl⟩ : ∃ c t, d2 = c :: t := by
    cases d2 with
    | nil => exact absurd rfl hne
    | cons c t => exact ⟨c, t, rfl⟩
  have hcdash : c = '-' := hdash c (List.mem_cons_self _ _)
  subst hcdash
  unfold markerTail
  have hws : ∀ x ∈ w4, pySpace x = true := hw4
  rw [List.append_assoc, dropWhile_append_of_all _ hws, List.cons_append,
    dropWhile_cons_false (d2t ++ w5) (by decide : pySpace '-' = false)]
  show ((d2t ++ w5).dropWhile (fun c => c == '-')).all pySpace = true
  rw [dropWhile_append_of_all _ (fun x hx => by
    have hxd := hdash x (List.mem_cons_of_mem _ hx)
    simp [hxd])]
  rw [dropWhile_all_false (fun x hx => by
    have hxws := hw5 x hx
    have hxne : x ≠ '-' := by
      intro heq
      subst heq
      simp [pySpace] at hxws
    simpa using hxne)]
  rw [List.all_eq_true]
  exact hw5

theorem markerTail_chars {r : List Char} (h : markerTail r = true) :
    ∀ c ∈ r, pySpace c = true ∨ c = '-' := by
  unfold markerTail at h
  split at h
  · rename_i t0 heq
    obtain ⟨hdec, hws⟩ := takeWhile_dropWhile_decomp heq
    obtain ⟨hdec2, hdash⟩ := takeWhile_dropWhile_decomp
      (rfl : t0.dropWhile (fun c => c == '-') = t0.dropWhile (fun c => c == '-'))
    intro c hc
    rw [hdec] at hc
    rcases List.mem_append.mp hc with hc1 | hc2
    · exact Or.inl (hws c hc1)
    · rcases List.mem_cons.mp hc2 with rfl | hc3
      · exact Or.inr rfl
      · rw [hdec2] at hc3
        rcases List.mem_append.mp hc3 with hc4 | hc5
        · have hceq := hdash c hc4
          simp at hceq
          exact Or.inr hceq
        · exact Or.inl (List.all_eq_true.mp h c hc5)
  · cases h

theorem markerTail_elim {r : List Char} (h : markerTail r = true) :
    ∃ w4 d2 w5, r = w4 ++ d2 ++ w5 ∧ wsList w4 ∧ dashList d2 ∧ wsList w5 := by
  unfold markerTail at h
  split at h
  · rename_i t0 heq
    obtain ⟨hdec, hws⟩ := takeWhile_dropWhile_decomp heq
    obtain ⟨hdec2, hdash⟩ := takeWhile_dropWhile_decomp
      (rfl : t0.dropWhile (fun c => c == '-') = t0.dropWhile (fun c => c == '-'))
    refine ⟨r.takeWhile pySpace, '-' :: t0.takeWhile (fun c => c == '-'),
      t0.dropWhile (fun c => c == '-'), ?_, hws, ?_, ?_⟩
    · conv_lhs => rw [hdec, hdec2]
      simp
    · refine ⟨by simp, ?_⟩
      intro c hc
      rcases List.mem_cons.mp hc with rfl | hc2
      · rfl
      · have := hdash c hc2
        simpa using this
    · intro c hc
      exact List.all_eq_true.mp h c hc
  · cases h

end CronExt

namespace CronExt

theorem lazyIdAux_complete (acc idc T : List Char)
    (hnl : ∀ c ∈ idc, c ≠ '\n') (hT : markerTail T = true) :
    lazyIdAux acc (idc ++ ')' :: T) = some (acc.reverse ++ idc) := by
  induction idc generalizing acc with
  | nil =>
    show lazyIdAux acc (')' :: T) = some (acc.reverse ++ [])
    rw [lazyIdAux]
    simp [hT]
  | cons c rest ih =>
    show lazyIdAux acc (c :: (rest ++ ')' :: T)) = _
    rw [lazyIdAux]
    have hcond : (c == ')' && markerTail (rest ++ ')' :: T)) = false := by
      by_cases hc : c = ')'
      · have hmt : markerTail (rest ++ ')' :: T) = false := by
          by_contra h2
          have h3 : markerTail (rest ++ ')' :: T) = true := by simpa using h2
          have h4 := markerTail_chars h3 ')'
            (List.mem_append.mpr (Or.inr (List.mem_cons_self _ _)))
          rcases h4 with h5 | h5 <;> simp [pySpace] at h5
        simp [hmt]
      · simp [hc]
    rw [hcond]
    have hc2 : (c == '\n') = false := by
      have := hnl c (List.mem_cons_self _ _)
      simpa using this
    rw [if_neg (by simp), hc2, if_neg (by simp)]
    rw [ih (c :: acc) (fun x hx => hnl x (List.mem_cons_of_mem _ hx))]
    simp

theorem lazyIdAux_some_elim {acc t out : List Char} (h : lazyIdAux acc t = some out) :
    ∃ idr T, t = idr ++ ')' :: T ∧ out = acc.reverse ++ idr ∧ markerTail T = true ∧
      ∀ c ∈ idr, c ≠ '\n' := by
  induction t generalizing acc with
  | nil => cases h
  | cons c t2 ih =>
    rw [lazyIdAux] at h
    by_cases hc1 : (c == ')' && markerTail t2) = true
    · rw [if_pos hc1] at h
      have hc : c = ')' := by
        have := (Bool.and_eq_true _ _).mp hc1
        simpa using this.1
      have hmt : markerTail t2 = true := ((Bool.and_eq_true _ _).mp hc1).2
      subst hc
      refine ⟨[], t2, rfl, ?_, hmt, by simp⟩
      have := Option.some_inj.mp h
      simp [← this]
    · rw [if_neg (by simpa using hc1)] at h
      by_cases hc2 : (c == '\n') = true
      · rw [if_pos hc2] at h
        cases h
      · rw [if_neg (by simpa using hc2)] at h
        obtain ⟨idr, T, hdec, hout, hmt, hnl⟩ := ih h
        refine ⟨c :: idr, T, by simp [hdec], ?_, hmt, ?_⟩
        · rw [hout]
          simp
        · intro x hx
          rcases List.mem_cons.mp hx with rfl | hx2
          · simpa using hc2
          · exact hnl x hx2

theorem markerHead_intro {w1 w2 d1 w3 rest : List Char}
    (hw1 : wsList w1) (hw2 : wsList w2) (hd1 : dashList d1) (hw3 : wsList w3)
    (hrest : rest = [] ∨ ∃ c t, rest = c :: t ∧ pySpace c = false ∧ (c == '-') = false) :
    markerHead (w1 ++ '#' :: (w2 ++ d1 ++ w3 ++ rest)) = some rest := by
  obtain ⟨hne, hdash⟩ := hd1
  obtain ⟨cd, d1t, rfl⟩ : ∃ c t, d1 = c :: t := by
    cases d1 with
    | nil => exact absurd rfl hne
    | cons c t => exact ⟨c, t, rfl⟩
  have hcd : cd = '-' := hdash cd (List.mem_cons_self _ _)
  subst hcd
  have hdashrest : (w3 ++ rest).dropWhile (fun c => c == '-') = w3 ++ rest := by
    cases hw3c : w3 with
    | nil =>
      rcases hrest with rfl | ⟨c, t, rfl, _, hcd2⟩
      · rfl
      · simpa using dropWhile_cons_false t hcd2
    | cons c w3t =>
      have hcws : pySpace c = true := by
        apply hw3
        rw [hw3c]
        exact List.mem_cons_self _ _
      have hcnd : (c == '-') = false := by
        have : c ≠ '-' := by
          intro heq
          subst heq
          simp [pySpace] at hcws
        simpa using this
      rw [List.cons_append]
      exact dropWhile_cons_false (w3t ++ rest) hcnd
  have hwsrest : rest.dropWhile pySpace = rest := by
    rcases hrest with rfl | ⟨c, t, rfl, hcws, _⟩
    · rfl
    · exact dropWhile_cons_false t hcws
  unfold markerHead
  rw [dropWhile_append_of_all _ hw1,
    dropWhile_cons_false _ (by decide : pySpace '#' = false)]
  show (match (w2 ++ ('-' :: d1t) ++ w3 ++ rest).dropWhile pySpace with
    | '-' :: t2 => some ((t2.dropWhile (fun c => c == '-')).dropWhile pySpace)
    | _ => none) = some rest
  have hassoc : (w2 ++ ('-' :: d1t) ++ w3 ++ rest) =
      w2 ++ ('-' :: (d1t ++ (w3 ++ rest))) := by
    simp
  rw [hassoc, dropWhile_append_of_all _ hw2,
    dropWhile_cons_false _ (by decide : pySpace '-' = false)]
  show some (((d1t ++ (w3 ++ rest)).dropWhile (fun c => c == '-')).dropWhile pySpace) =
    some rest
  rw [dropWhile_append_of_all _ (fun x hx => by
    have := hdash x (List.mem_cons_of_mem _ hx)
    simp [this])]
  rw [hdashrest, dropWhile_append_of_all _ hw3, hwsrest]

theorem markerHead_elim {cs rest : List Char} (h : markerHead cs = some rest) :
    ∃ w1 w2 d1 w3, cs = w1 ++ '#' :: (w2 ++ d1 ++ w3 ++ rest) ∧
      wsList w1 ∧ wsList w2 ∧ dashList d1 ∧ wsList w3 := by
  unfold markerHead at h
  split at h
  · rename_i t heq
    obtain ⟨hdec1, hws1⟩ := takeWhile_dropWhile_decomp heq
    split at h
    · rename_i t2 heq2
      obtain ⟨hdec2, hws2⟩ := takeWhile_dropWhile_decomp heq2
      obtain ⟨hdec3, hdash3⟩ := takeWhile_dropWhile_decomp
        (rfl : t2.dropWhile (fun c => c == '-') = t2.dropWhile (fun c => c == '-'))
      have hrest2 : (t2.dropWhile (fun c => c == '-')).dropWhile pySpace = rest :=
        Option.some_inj.mp h
      obtain ⟨hdec4, hws4⟩ := takeWhile_dropWhile_decomp hrest2
      refine ⟨cs.takeWhile pySpace, t.takeWhile pySpace,
        '-' :: t2.takeWhile (fun c => c == '-'),
        (t2.dropWhile (fun c => c == '-')).takeWhile pySpace, ?_, hws1, hws2, ?_, hws4⟩
      · conv_lhs => rw [hdec1, hdec2, hdec3]
        conv_lhs => rw [hdec4]
        simp
      · refine ⟨by simp, ?_⟩
        intro c hc
        rcases List.mem_cons.mp hc with rfl | hc2
        · rfl
        · have := hdash3 c hc2
          simpa using this
    · cases h
  · cases h

end CronExt

namespace CronExt

theorem stripLit_some {ph cs rest : List Char} (h : stripLit ph cs = some rest) :
    cs = ph ++ rest := by
  unfold stripLit at h
  split at h
  · rename_i htake
    have hdrop := Option.some_inj.mp h
    rw [← htake, ← hdrop]
    exact (List.take_append_drop ph.length cs).symm
  · cases h

theorem stripLit_append (ph r : List Char) : stripLit ph (ph ++ r) = some r := by
  unfold stripLit
  rw [if_pos]
  · rw [List.drop_left]
  · rw [List.take_left]

theorem sectionMarkerK_iff (word pid line : String)
    (hw : ∃ c t, sectionPhrase word = c :: t ∧ pySpace c = false ∧ (c == '-') = false) :
    sectionMarkerK word pid line = true ↔ specMarkerK word pid line := by
  constructor
  · intro h
    have hid : sectionMarkerKId word line = some pid := by
      have h2 : (sectionMarkerKId word line == some pid) = true := h
      simpa using h2
    unfold sectionMarkerKId at hid
    split at hid
    · rename_i r hmh
      split at hid
      · rename_i t hsl
        obtain ⟨idc0, hla, hmk⟩ := Option.map_eq_some'.mp hid
        have hidc : idc0 = pid.data := by
          rw [← hmk]
        obtain ⟨w1, w2, d1, w3, hdata, hw1, hw2, hd1, hw3⟩ := markerHead_elim hmh
        have hr := stripLit_some hsl
        obtain ⟨idr, T, ht, hout, hmt, hnl⟩ := lazyIdAux_some_elim hla
        have hidr : idr = pid.data := by
          rw [← hidc, hout]
          simp
        obtain ⟨w4, d2, w5, hT, hw4, hd2, hw5⟩ := markerTail_elim hmt
        refine ⟨w1, w2, d1, w3, sectionPhrase word, pid.data, w4, d2, w5, ?_, hw1, hw2,
          hd1, hw3, rfl, rfl, ?_, hw4, hd2, hw5⟩
        · rw [hdata, hr, ht, hT, hidr]
          simp
        · rw [List.all_eq_true]
          intro c hc
          have := hnl c (hidr ▸ hc)
          simpa using this
      · cases hid
    · cases hid
  · rintro ⟨w1, w2, d1, w3, ph, idc, w4, d2, w5, hdata, hw1, hw2, hd1, hw3, hph, hidc,
      hnlb, hw4, hd2, hw5⟩
    obtain ⟨c0, t0, hphr, hc0ws, hc0d⟩ := hw
    have hrest : ph ++ ' ' :: '(' :: (idc ++ ')' :: (w4 ++ d2 ++ w5)) =
        c0 :: (t0 ++ ' ' :: '(' :: (idc ++ ')' :: (w4 ++ d2 ++ w5))) := by
      rw [hph, hphr]
      simp
    have hform : line.data = w1 ++ '#' :: (w2 ++ d1 ++ w3 ++
        (ph ++ ' ' :: '(' :: (idc ++ ')' :: (w4 ++ d2 ++ w5)))) := by
      rw [hdata]
      simp
    have hmh : markerHead line.data = some
        (ph ++ ' ' :: '(' :: (idc ++ ')' :: (w4 ++ d2 ++ w5))) := by
      rw [hform]
      exact markerHead_intro hw1 hw2 hd1 hw3
        (Or.inr ⟨c0, t0 ++ ' ' :: '(' :: (idc ++ ')' :: (w4 ++ d2 ++ w5)), hrest,
          hc0ws, hc0d⟩)
    have hsl : stripLit (sectionPhrase word ++ [' ', '('])
        (ph ++ ' ' :: '(' :: (idc ++ ')' :: (w4 ++ d2 ++ w5))) =
        some (idc ++ ')' :: (w4 ++ d2 ++ w5)) := by
      have hre : ph ++ ' ' :: '(' :: (idc ++ ')' :: (w4 ++ d2 ++ w5)) =
          (sectionPhrase word ++ [' ', '(']) ++ (idc ++ ')' :: (w4 ++ d2 ++ w5)) := by
        rw [hph]
        simp
      rw [hre]
      exact stripLit_append _ _
    have hnlp : ∀ c ∈ idc, c ≠ '\n' := by
      intro c hc
      have := List.all_eq_true.mp hnlb c hc
      simpa using this
    have hla : lazyIdAux [] (idc ++ ')' :: (w4 ++ d2 ++ w5)) = some idc := by
      have := lazyIdAux_complete [] idc (w4 ++ d2 ++ w5) hnlp
        (markerTail_intro hw4 hd2 hw5)
      simpa using this
    have hfinal : sectionMarkerKId word line = some (String.mk idc) := by
      unfold sectionMarkerKId
      rw [hmh]
      dsimp only []
      rw [hsl]
      dsimp only []
      rw [hla]
      rfl
    have hmkpid : String.mk idc = pid := by
      rw [hidc]
    unfold sectionMarkerK
    rw [hfinal, hmkpid]
    simp

end CronExt

namespace CronExt

theorem list_decomp_at {α : Type} {l : List α} {i : Nat} (d : α) (h : i < l.length) :
    l = l.take i ++ l.getD i d :: l.drop (i + 1) := by
  rw [List.getD_eq_getElem _ _ h]
  conv_lhs => rw [← List.take_append_drop i l]
  rw [List.drop_eq_getElem_cons h]

theorem mem_take_getD {α : Type} {l : List α} {i : Nat} (d : α) {b : α}
    (hb : b ∈ l.take i) : ∃ m, m < i ∧ m < l.length ∧ l.getD m d = b := by
  obtain ⟨m, hm, hbm⟩ := List.mem_iff_getElem.mp hb
  have hlen : m < i ∧ m < l.length := by
    have := hm
    simp [List.length_take] at this
    omega
  refine ⟨m, hlen.1, hlen.2, ?_⟩
  rw [List.getD_eq_getElem _ _ hlen.2, ← hbm]
  exact (List.getElem_take l).symm

theorem findSectionK_eq_some {pid : String} {lines : List String} {a : Nat} {b : Int} :
    findSectionK pid lines = some (a, b) ↔
      ∃ i j, findIdxA (sectionMarkerK "BEGIN" pid) lines = some i ∧
        findIdxA (sectionMarkerK "END" pid) lines.reverse = some j ∧
        a = i + 1 ∧ b = -(j : Int) - 1 := by
  unfold findSectionK
  cases hB : findIdxA (sectionMarkerK "BEGIN" pid) lines with
  | none => simp [hB]
  | some i =>
    cases hE : findIdxA (sectionMarkerK "END" pid) lines.reverse with
    | none => simp [hE]
    | some j =>
      constructor
      · intro h
        refine ⟨i, j, rfl, rfl, ?_, ?_⟩
        · exact congrArg Prod.fst (Option.some_inj.mp h) |>.symm
        · exact congrArg Prod.snd (Option.some_inj.mp h) |>.symm
      · rintro ⟨i2, j2, hi2, hj2, rfl, rfl⟩
        cases hi2; cases hj2; rfl

theorem findSectionK_none_iff {pid : String} {lines : List String} :
    findSectionK pid lines = none ↔
      (∀ l ∈ lines, sectionMarkerK "BEGIN" pid l = false) ∨
      (∀ l ∈ lines, sectionMarkerK "END" pid l = false) := by
  unfold findSectionK
  cases hB : findIdxA (sectionMarkerK "BEGIN" pid) lines with
  | none =>
    simp only []
    constructor
    · intro _
      exact Or.inl (findIdxA_none_iff.mp hB)
    · intro _
      trivial
  | some i =>
    cases hE : findIdxA (sectionMarkerK "END" pid) lines.reverse with
    | none =>
      simp only []
      constructor
      · intro _
        refine Or.inr ?_
        intro l hl
        exact findIdxA_none_iff.mp hE l (List.mem_reverse.mpr hl)
      · intro _
        trivial
    | some j =>
      simp only []
      constructor
      · intro h
        cases h
      · intro h
        rcases h with h | h
        · rw [findIdxA_none_iff.mpr h] at hB
          cases hB
        · have : findIdxA (sectionMarkerK "END" pid) lines.reverse = none := by
            rw [findIdxA_none_iff]
            intro l hl
            exact h l (List.mem_reverse.mp hl)
          rw [this] at hE
          cases hE

theorem findSectionK_first_last {pid : String} {lines : List String} {i0 j0 : Nat}
    (h1 : i0 < lines.length) (h2 : sectionMarkerK "BEGIN" pid (lines.getD i0 "") = true)
    (h3 : ∀ m, m < i0 → sectionMarkerK "BEGIN" pid (lines.getD m "") = false)
    (h4 : j0 < lines.length) (h5 : sectionMarkerK "END" pid (lines.getD j0 "") = true)
    (h6 : ∀ m, j0 < m → m < lines.length →
      sectionMarkerK "END" pid (lines.getD m "") = false) :
    ∃ b : Int, findSectionK pid lines = some (i0 + 1, b) ∧
      (lines.length : Int) + b = j0 := by
  have hBfind : findIdxA (sectionMarkerK "BEGIN" pid) lines = some i0 := by
    have hdec := list_decomp_at "" h1
    have := findIdxA_of_decomp (lines.take i0) (lines.getD i0 "") (lines.drop (i0 + 1))
      h2 (fun b hb => by
        obtain ⟨m, hmi, hml, hbm⟩ := mem_take_getD "" hb
        rw [← hbm]
        exact h3 m hmi)
    rw [← hdec] at this
    rw [this, take_length_of_le (Nat.le_of_lt h1)]
  have hEfind : findIdxA (sectionMarkerK "END" pid) lines.reverse =
      some (lines.length - 1 - j0) := by
    have hdec := list_decomp_at "" h4
    have hrev : lines.reverse = (lines.drop (j0 + 1)).reverse ++ lines.getD j0 "" ::
        (lines.take j0).reverse := by
      conv_lhs => rw [hdec]
      simp
    have hfind := findIdxA_of_decomp ((lines.drop (j0 + 1)).reverse) (lines.getD j0 "")
      ((lines.take j0).reverse) h5 (fun b hb => by
        have hbmem : b ∈ lines.drop (j0 + 1) := List.mem_reverse.mp hb
        obtain ⟨m, hm, hbm⟩ := List.mem_iff_getElem.mp hbmem
        have hmlen : j0 + 1 + m < lines.length := by
          have := hm
          simp [List.length_drop] at this
          omega
        have hbg : lines.getD (j0 + 1 + m) "" = b := by
          rw [List.getD_eq_getElem _ _ hmlen, ← hbm]
          exact (List.getElem_drop lines).symm
        rw [← hbg]
        exact h6 (j0 + 1 + m) (by omega) hmlen)
    rw [← hrev] at hfind
    rw [hfind]
    congr 1
    simp [List.length_reverse, List.length_drop]
    omega
  refine ⟨-((lines.length - 1 - j0 : Nat) : Int) - 1, ?_, ?_⟩
  · rw [findSectionK_eq_some]
    exact ⟨i0, lines.length - 1 - j0, hBfind, hEfind, rfl, rfl⟩
  · omega

end CronExt

namespace CronExt

theorem filter_isManagedNamed (nm : String) (zs : List String) :
    zs.filter (isManagedNamed nm) =
      (zs.filter (fun l => !(ignoreEntry l))).filter
        (fun e => nameOfEntry e == some nm) := by
  rw [List.filter_filter]
  apply List.filter_congr
  intro a _
  simp [isManagedNamed, Bool.and_comm]

theorem filter_name_len_le_one {zs : List String}
    (hnd : (zs.filterMap nameOfEntry).Nodup) (nm : String) :
    (zs.filter (fun e => nameOfEntry e == some nm)).length ≤ 1 := by
  induction zs with
  | nil => simp
  | cons e t ih =>
    rw [List.filter_cons]
    cases hname : nameOfEntry e with
    | none =>
      have hne : (nameOfEntry e == some nm) = false := by simp [hname]
      rw [hname] at hne
      simp only [hne, Bool.false_eq_true, if_false]
      apply ih
      have : (e :: t).filterMap nameOfEntry = t.filterMap nameOfEntry := by
        rw [List.filterMap_cons, hname]
      rwa [this] at hnd
    | some n0 =>
      have hfm : (e :: t).filterMap nameOfEntry = n0 :: t.filterMap nameOfEntry := by
        rw [List.filterMap_cons, hname]
      rw [hfm] at hnd
      obtain ⟨hnotin, hndt⟩ := List.nodup_cons.mp hnd
      by_cases heq : n0 = nm
      · subst heq
        have hbe : (nameOfEntry e == some n0) = true := by simp [hname]
        rw [hname] at hbe
        simp only [hbe, if_true]
        have hnil : t.filter (fun e2 => nameOfEntry e2 == some n0) = [] := by
          rw [List.filter_eq_nil_iff]
          intro e2 he2
          intro hc
          have hn2 : nameOfEntry e2 = some n0 := by simpa using hc
          exact hnotin (List.mem_filterMap.mpr ⟨e2, he2, hn2⟩)
        rw [hnil]
        simp
      · have hbe : (nameOfEntry e == some nm) = false := by simp [hname, heq]
        rw [hname] at hbe
        simp only [hbe, Bool.false_eq_true, if_false]
        exact ih hndt

theorem countManagedNamed_unique (xs : List String) (nm : String) :
    countManagedNamed nm (uniqueEntries xs) ≤ 1 := by
  obtain ⟨_, hnd, _⟩ := @uniqueAux_output_names [] xs
  unfold countManagedNamed uniqueEntries
  rw [filter_isManagedNamed]
  exact filter_name_len_le_one hnd nm

theorem countManagedNamed_sublist {zs ws : List String} (h : List.Sublist zs ws)
    (nm : String) : countManagedNamed nm zs ≤ countManagedNamed nm ws :=
  (h.filter _).length_le

theorem isManagedNamed_elim {nm e : String} (h : isManagedNamed nm e = true) :
    ignoreEntry e = false ∧ ∃ pn, cron_entry_fullmatch e = some pn ∧ pn.2 = nm := by
  unfold isManagedNamed at h
  obtain ⟨h1, h2⟩ := (Bool.and_eq_true _ _).mp h
  refine ⟨by simpa using h1, ?_⟩
  cases hm : cron_entry_fullmatch e with
  | none =>
    rw [nameOfEntry, hm] at h2
    simp at h2
  | some pn =>
    refine ⟨pn, rfl, ?_⟩
    rw [nameOfEntry, hm] at h2
    simpa using h2

theorem uniqueAux_priority {seen : List String} {xs ys : List String} {nm : String}
    (hseen : nm ∉ seen)
    (hex : ∃ e0 ∈ xs, isManagedNamed nm e0 = true) :
    ∃ e, (uniqueEntriesAux seen (xs ++ ys)).filter (isManagedNamed nm) = [e] ∧
      e ∈ xs := by
  induction xs generalizing seen with
  | nil => simp at hex
  | cons e xs2 ih =>
    obtain ⟨e0, he0mem, he0⟩ := hex
    by_cases hig : ignoreEntry e = true
    · have hstep : uniqueEntriesAux seen ((e :: xs2) ++ ys) =
          e :: uniqueEntriesAux seen (xs2 ++ ys) := uniqueAux_cons_ignore hig
      rw [hstep, List.filter_cons]
      have hmn : isManagedNamed nm e = false := by
        unfold isManagedNamed
        simp [hig]
      simp only [hmn, Bool.false_eq_true, if_false]
      have he0x2 : e0 ∈ xs2 := by
        rcases List.mem_cons.mp he0mem with rfl | hmem
        · exfalso
          have := (isManagedNamed_elim he0).1
          rw [hig] at this
          cases this
        · exact hmem
      obtain ⟨e2, hfeq, hmem2⟩ := ih hseen ⟨e0, he0x2, he0⟩
      exact ⟨e2, hfeq, List.mem_cons_of_mem _ hmem2⟩
    · have hig2 : ignoreEntry e = false := by simpa using hig
      cases hm : cron_entry_fullmatch e with
      | none =>
        have hstep : uniqueEntriesAux seen ((e :: xs2) ++ ys) =
            uniqueEntriesAux seen (xs2 ++ ys) := uniqueAux_cons_none hig2 hm
        rw [hstep]
        have he0x2 : e0 ∈ xs2 := by
          rcases List.mem_cons.mp he0mem with rfl | hmem
          · exfalso
            obtain ⟨_, pn, hpn, _⟩ := isManagedNamed_elim he0
            rw [hm] at hpn
            cases hpn
          · exact hmem
        obtain ⟨e2, hfeq, hmem2⟩ := ih hseen ⟨e0, he0x2, he0⟩
        exact ⟨e2, hfeq, List.mem_cons_of_mem _ hmem2⟩
      | some pn =>
        by_cases hs : pn.2 ∈ seen
        · have hstep : uniqueEntriesAux seen ((e :: xs2) ++ ys) =
              uniqueEntriesAux seen (xs2 ++ ys) := uniqueAux_cons_seen hig2 hm hs
          rw [hstep]
          have hpnm : pn.2 ≠ nm := by
            intro heq
            subst heq
            exact hseen hs
          have he0x2 : e0 ∈ xs2 := by
            rcases List.mem_cons.mp he0mem with rfl | hmem
            · exfalso
              obtain ⟨_, pn2, hpn2, hn2⟩ := isManagedNamed_elim he0
              rw [hm] at hpn2
              cases hpn2
              exact hpnm hn2
            · exact hmem
          obtain ⟨e2, hfeq, hmem2⟩ := ih hseen ⟨e0, he0x2, he0⟩
          exact ⟨e2, hfeq, List.mem_cons_of_mem _ hmem2⟩
        · have hstep : uniqueEntriesAux seen ((e :: xs2) ++ ys) =
              e :: uniqueEntriesAux (pn.2 :: seen) (xs2 ++ ys) :=
            uniqueAux_cons_new hig2 hm hs
          rw [hstep, List.filter_cons]
          by_cases hpnm : pn.2 = nm
          · subst hpnm
            have hmn : isManagedNamed pn.2 e = true := by
              unfold isManagedNamed nameOfEntry
              simp [hig2, hm]
            simp only [hmn, if_true]
            have hnil : (uniqueEntriesAux (pn.2 :: seen) (xs2 ++ ys)).filter
                (isManagedNamed pn.2) = [] := by
              rw [List.filter_eq_nil_iff]
              intro x hx
              intro hc
              obtain ⟨hxig, pnx, hpnx, hnx⟩ := isManagedNamed_elim hc
              obtain ⟨pny, hpny, hny⟩ := uniqueAux_mem_name hx hxig
              rw [hpnx] at hpny
              cases hpny
              rw [hnx] at hny
              have hnot := @uniqueAux_output_names (pn.2 :: seen) (xs2 ++ ys)
              obtain ⟨_, _, hc3⟩ := hnot
              have hxmemf : x ∈ (uniqueEntriesAux (pn.2 :: seen) (xs2 ++ ys)).filter
                  (fun l => !(ignoreEntry l)) := by
                rw [List.mem_filter]
                exact ⟨hx, by simp [hxig]⟩
              have hnmem : pn.2 ∈ ((uniqueEntriesAux (pn.2 :: seen)
                  (xs2 ++ ys)).filter (fun l => !(ignoreEntry l))).filterMap
                  nameOfEntry := by
                rw [List.mem_filterMap]
                refine ⟨x, hxmemf, ?_⟩
                rw [nameOfEntry, hpnx]
                simp [hnx]
              exact hc3 pn.2 hnmem (List.mem_cons_self _ _)
            rw [hnil]
            exact ⟨e, rfl, List.mem_cons_self _ _⟩
          · have hmn : isManagedNamed nm e = false := by
              unfold isManagedNamed nameOfEntry
              simp [hm, hpnm]
            simp only [hmn, Bool.false_eq_true, if_false]
            have hseen2 : nm ∉ pn.2 :: seen := by
              intro hc
              rcases List.mem_cons.mp hc with rfl | hc2
              · exact hpnm rfl
              · exact hseen hc2
            have he0x2 : e0 ∈ xs2 := by
              rcases List.mem_cons.mp he0mem with rfl | hmem
              · exfalso
                obtain ⟨_, pn2, hpn2, hn2⟩ := isManagedNamed_elim he0
                rw [hm] at hpn2
                cases hpn2
                exact hpnm hn2
              · exact hmem
            obtain ⟨e2, hfeq, hmem2⟩ := ih hseen2 ⟨e0, he0x2, he0⟩
            exact ⟨e2, hfeq, List.mem_cons_of_mem _ hmem2⟩

end CronExt

namespace CronExt

theorem setEntries_decomp (lines xs : List String) :
    ∃ mid, setEntries lines xs = (outsideParts lines).1 ++ mid ++ (outsideParts lines).2 ∧
      ∀ l ∈ mid, l ∈ xs ∨ l = beginLineStd ∨ l = endLineStd ∨ l = "" := by
  cases hfind : findSectionU lines with
  | some ab =>
    refine ⟨xs, ?_, fun l hl => Or.inl hl⟩
    unfold outsideParts
    rw [hfind]
    exact setEntries_found hfind xs
  | none =>
    refine ⟨"" :: beginLineStd :: (xs ++ [endLineStd, ""]), ?_, ?_⟩
    · unfold outsideParts
      rw [hfind]
      rw [setEntries_absent hfind xs]
      simp
    · intro l hl
      rcases List.mem_cons.mp hl with rfl | hl2
      · exact Or.inr (Or.inr (Or.inr rfl))
      rcases List.mem_cons.mp hl2 with rfl | hl3
      · exact Or.inr (Or.inl rfl)
      rcases List.mem_append.mp hl3 with hl4 | hl4
      · exact Or.inl hl4
      rcases List.mem_cons.mp hl4 with rfl | hl5
      · exact Or.inr (Or.inr (Or.inl rfl))
      have : l = "" := by simpa using hl5
      subst this
      exact Or.inr (Or.inr (Or.inr rfl))

theorem uninstall_fst (pred : String → Bool) (lines : List String) :
    (uninstallEntries pred lines).1 =
      setEntries lines ((entriesOf lines).filter (keepEntry pred)) := rfl

theorem uninstall_snd (pred : String → Bool) (lines : List String) :
    (uninstallEntries pred lines).2 =
      (entriesOf lines).filterMap (fun e =>
        match cron_entry_fullmatch e with
        | some pn => if pred pn.2 then some pn.1 else none
        | none => none) := rfl

theorem uninstall_entriesOf (pred : String → Bool) (lines : List String)
    (h : hasEndU lines = true ∨ hasBeginU lines = false) :
    entriesOf ((uninstallEntries pred lines).1) =
      (entriesOf lines).filter (keepEntry pred) := by
  rw [uninstall_fst]
  have hkeep : ∀ e ∈ (entriesOf lines).filter (keepEntry pred),
      (!(ignoreEntry e)) = true := by
    intro e he
    have hmem : e ∈ entriesOf lines := (List.mem_filter.mp he).1
    simp [entriesOf_nonignored lines e hmem]
  cases hfind : findSectionU lines with
  | some ab =>
    obtain ⟨a, b⟩ := ab
    obtain ⟨_, hent, _⟩ := setEntries_stable hfind ((entriesOf lines).filter (keepEntry pred))
    rw [hent]
    exact List.filter_eq_self.mpr hkeep
  | none =>
    obtain ⟨hent, _⟩ := setEntries_absent_stable hfind (no_begin_of_none hfind h)
      ((entriesOf lines).filter (keepEntry pred))
    rw [hent]
    exact List.filter_eq_self.mpr hkeep

theorem keepEntry_true_iff {pred : String → Bool} {e : String} :
    keepEntry pred e = true ↔ ∃ pn, cron_entry_fullmatch e = some pn ∧ pred pn.2 = false := by
  unfold keepEntry
  cases hm : cron_entry_fullmatch e with
  | none => simp
  | some pn =>
    constructor
    · intro hx
      exact ⟨pn, rfl, by simpa using hx⟩
    · rintro ⟨pn2, hpn2, hp⟩
      cases hpn2
      simp [hp]

theorem uninstallPredicate_default (known : List String) :
    uninstallPredicate [] false known = fun x => known.contains x := rfl

end CronExt

namespace CronExt

theorem string_mk_eq_iff {l : List Char} {p : String} : String.mk l = p ↔ l = p.data := by
  constructor
  · intro h
    rw [← h]
  · intro h
    rw [h]

theorem entry_fullmatch_eq_some {s p nm : String} :
    entry_fullmatch s = some (p, nm) ↔ matchAData s.data = some (p.data, nm.data) := by
  unfold entry_fullmatch
  cases hm : matchAData s.data with
  | none => simp
  | some pn =>
    cases pn with
    | mk p1 n1 =>
      show some (String.mk p1, String.mk n1) = some (p, nm) ↔
        some (p1, n1) = some (p.data, nm.data)
      simp only [Option.some.injEq, Prod.mk.injEq]
      rw [string_mk_eq_iff, string_mk_eq_iff]

theorem cron_entry_fullmatch_eq_some {s p nm : String} :
    cron_entry_fullmatch s = some (p, nm) ↔ matchBData s.data = some (p.data, nm.data) := by
  unfold cron_entry_fullmatch
  cases hm : matchBData s.data with
  | none => simp
  | some pn =>
    cases pn with
    | mk p1 n1 =>
      show some (String.mk p1, String.mk n1) = some (p, nm) ↔
        some (p1, n1) = some (p.data, nm.data)
      simp only [Option.some.injEq, Prod.mk.injEq]
      rw [string_mk_eq_iff, string_mk_eq_iff]

end CronExt

namespace CronExt

theorem installEntries_entriesOf (new lines : List String)
    (h : hasEndU lines = true ∨ hasBeginU lines = false) :
    entriesOf (installEntries new lines) =
      (uniqueEntries (new ++ entriesOf lines)).filter (fun l => !(ignoreEntry l)) := by
  unfold installEntries
  cases hfind : findSectionU lines with
  | some ab =>
    obtain ⟨a, b⟩ := ab
    exact (setEntries_stable hfind _).2.1
  | none =>
    exact (setEntries_absent_stable hfind (no_begin_of_none hfind h) _).1

theorem filter_ign_isManagedNamed (nm : String) (W : List String) :
    (W.filter (fun l => !(ignoreEntry l))).filter (isManagedNamed nm) =
      W.filter (isManagedNamed nm) := by
  rw [List.filter_filter]
  apply List.filter_congr
  intro a _
  cases hig : ignoreEntry a <;> simp [isManagedNamed, hig]

theorem uniqueEntries_subset {zs : List String} {l : String}
    (h : l ∈ uniqueEntries zs) : l ∈ zs :=
  (uniqueAux_sublist [] zs).subset h

end CronExt

namespace CronExt

/-- C1 (amended): every line outside the managed BEGIN/END section is
preserved bit-for-bit by install and by uninstall; but the section interior
is rebuilt, and every line placed there comes from the new entries, the old
managed (non-ignored, pattern-matching) entries, or is a standard marker or
blank line — so comments, blank lines and foreign lines previously inside
the section are not preserved. -/
theorem theorem_C1 (newEntries lines : List String) (pred : String → Bool) :
    (∃ mid, installEntries newEntries lines =
        (outsideParts lines).1 ++ mid ++ (outsideParts lines).2 ∧
      ∀ l ∈ mid, l ∈ newEntries ∨ l ∈ entriesOf lines ∨
        l = beginLineStd ∨ l = endLineStd ∨ l = "") ∧
    (∃ mid, (uninstallEntries pred lines).1 =
        (outsideParts lines).1 ++ mid ++ (outsideParts lines).2 ∧
      ∀ l ∈ mid, l ∈ entriesOf lines ∨ l = beginLineStd ∨ l = endLineStd ∨ l = "") := by
  constructor
  · obtain ⟨mid, hm, hmem⟩ :=
      setEntries_decomp lines (uniqueEntries (newEntries ++ entriesOf lines))
    refine ⟨mid, hm, fun l hl => ?_⟩
    rcases hmem l hl with h | h | h | h
    · rcases List.mem_append.mp (uniqueEntries_subset h) with h2 | h2
      · exact Or.inl h2
      · exact Or.inr (Or.inl h2)
    · exact Or.inr (Or.inr (Or.inl h))
    · exact Or.inr (Or.inr (Or.inr (Or.inl h)))
    · exact Or.inr (Or.inr (Or.inr (Or.inr h)))
  · obtain ⟨mid, hm, hmem⟩ :=
      setEntries_decomp lines ((entriesOf lines).filter (keepEntry pred))
    rw [uninstall_fst]
    refine ⟨mid, hm, fun l hl => ?_⟩
    rcases hmem l hl with h | h | h | h
    · exact Or.inl (List.mem_filter.mp h).1
    · exact Or.inr (Or.inl h)
    · exact Or.inr (Or.inr (Or.inl h))
    · exact Or.inr (Or.inr (Or.inr h))

/-- Witness for C1 at concrete inputs. -/
theorem theorem_C1_witness :
    ∃ mid, installEntries ["0 \x27/p/x.sh\x27"] ["z"] =
        (outsideParts ["z"]).1 ++ mid ++ (outsideParts ["z"]).2 ∧
      ∀ l ∈ mid, l ∈ ["0 \x27/p/x.sh\x27"] ∨ l ∈ entriesOf ["z"] ∨
        l = beginLineStd ∨ l = endLineStd ∨ l = "" :=
  (theorem_C1 ["0 \x27/p/x.sh\x27"] ["z"] (fun _ => false)).1

/-- Counterexample to C1 as stated: a full-line comment inside the managed
section is dropped by install. -/
theorem counterexample_C1 :
    "# k" ∈ ["#-BEGIN MELTANO CRONTAB SECTION-", "# k", "#-END MELTANO CRONTAB SECTION-"] ∧
    "# k" ∉ installEntries []
      ["#-BEGIN MELTANO CRONTAB SECTION-", "# k", "#-END MELTANO CRONTAB SECTION-"] := by
  constructor
  · decide
  · decide

end CronExt

namespace CronExt

/-- C2 (amended): after install the managed section holds at most one managed
entry per name, and when a new entry named `nm` is generated it is the one
that survives; uninstall never increases the per-name count, but does not
deduplicate pre-existing duplicates. -/
theorem theorem_C2 (newEntries lines : List String) (pred : String → Bool) (nm : String)
    (hsec : hasEndU lines = true ∨ hasBeginU lines = false) :
    countManagedNamed nm (entriesOf (installEntries newEntries lines)) ≤ 1 ∧
    ((∃ e0 ∈ newEntries, isManagedNamed nm e0 = true) →
      ∃ e, (entriesOf (installEntries newEntries lines)).filter (isManagedNamed nm) = [e] ∧
        e ∈ newEntries) ∧
    countManagedNamed nm (entriesOf ((uninstallEntries pred lines).1)) ≤
      countManagedNamed nm (entriesOf lines) := by
  have hinst := installEntries_entriesOf newEntries lines hsec
  refine ⟨?_, ?_, ?_⟩
  · rw [hinst]
    exact Nat.le_trans (countManagedNamed_sublist (List.filter_sublist _) nm)
      (countManagedNamed_unique _ nm)
  · intro hex
    rw [hinst, filter_ign_isManagedNamed]
    exact uniqueAux_priority (List.not_mem_nil nm) hex
  · rw [uninstall_entriesOf pred lines hsec]
    exact countManagedNamed_sublist (List.filter_sublist _) nm

/-- Witness for C2 at concrete inputs. -/
theorem theorem_C2_witness :
    countManagedNamed "x" (entriesOf (installEntries ["0 \x27/p/x.sh\x27"] [])) ≤ 1 ∧
    (∃ e, (entriesOf (installEntries ["0 \x27/p/x.sh\x27"] [])).filter
        (isManagedNamed "x") = [e] ∧ e ∈ ["0 \x27/p/x.sh\x27"]) ∧
    countManagedNamed "x" (entriesOf ((uninstallEntries (fun _ => false) []).1)) ≤
      countManagedNamed "x" (entriesOf []) := by
  obtain ⟨h1, h2, h3⟩ :=
    theorem_C2 ["0 \x27/p/x.sh\x27"] [] (fun _ => false) "x" (Or.inr (by decide))
  exact ⟨h1, h2 ⟨"0 \x27/p/x.sh\x27", by decide, by decide⟩, h3⟩

/-- Counterexample to C2 as stated: two managed entries with the same name
both survive an uninstall that removes neither (the claim asserts at most one
per name after any uninstall). -/
theorem counterexample_C2 :
    countManagedNamed "x" (entriesOf ((uninstallEntries (uninstallPredicate ["z"] false [])
      ["#-BEGIN MELTANO CRONTAB SECTION-", "0 \x27/p/x.sh\x27", "1 \x27/p/x.sh\x27",
        "#-END MELTANO CRONTAB SECTION-"]).1)) = 2 := by
  decide

/-- C3: the keyed section locator returns the index after the first matching
BEGIN line and the (negative, end-exclusive) index of the last matching END
line; it fails exactly when no line matches the BEGIN template or no line
matches the END template (with the project key). -/
theorem theorem_C3 :
    (∀ (pid : String) (lines : List String) (i0 j0 : Nat),
      i0 < lines.length → sectionMarkerK "BEGIN" pid (lines.getD i0 "") = true →
      (∀ m, m < i0 → sectionMarkerK "BEGIN" pid (lines.getD m "") = false) →
      j0 < lines.length → sectionMarkerK "END" pid (lines.getD j0 "") = true →
      (∀ m, m < lines.length → j0 < m →
        sectionMarkerK "END" pid (lines.getD m "") = false) →
      ∃ b : Int, findSectionK pid lines = some (i0 + 1, b) ∧
        (lines.length : Int) + b = j0) ∧
    (∀ (pid : String) (lines : List String),
      findSectionK pid lines = none ↔
        (∀ l ∈ lines, sectionMarkerK "BEGIN" pid l = false) ∨
        (∀ l ∈ lines, sectionMarkerK "END" pid l = false)) := by
  constructor
  · intro pid lines i0 j0 h1 h2 h3 h4 h5 h6
    exact findSectionK_first_last h1 h2 h3 h4 h5 (fun m hj hl => h6 m hl hj)
  · intro pid lines
    exact findSectionK_none_iff

/-- Witness for C3 at concrete inputs: repeated markers select the
first-BEGIN / last-END span. -/
theorem theorem_C3_witness :
    ∃ b : Int,
      findSectionK "p" ["#-BEGIN MELTANO CRONTAB SECTION (p)-", "y",
        "#-END MELTANO CRONTAB SECTION (p)-", "#-END MELTANO CRONTAB SECTION (p)-"] =
        some (1, b) ∧
      ((4 : Nat) : Int) + b = 3 :=
  theorem_C3.1 "p" ["#-BEGIN MELTANO CRONTAB SECTION (p)-", "y",
      "#-END MELTANO CRONTAB SECTION (p)-", "#-END MELTANO CRONTAB SECTION (p)-"] 0 3
    (by decide) (by decide) (by decide) (by decide) (by decide) (by decide)

end CronExt

namespace CronExt

/-- C4 (amended): `parse_entry` succeeds iff the whole line has the shape
`<something>\x27<path>\x27<anything>` with a non-empty prefix before the
opening quote (the pattern begins with `.+?`, not `.*?`) and the path of the
form `<absolute-path>/<name>.sh` with case-insensitive `sh`; on success it
captures the full quoted path and the final segment without `.sh`; and every
line classifies as exactly one of comment-or-blank, managed, or foreign. -/
theorem theorem_C4 (s : String) :
    ((entry_fullmatch s).isSome = true ↔ specEntryShape s) ∧
    (∀ p nm, entry_fullmatch s = some (p, nm) →
      ∃ pre post d c1 c2,
        s.data = pre ++ '\'' :: (p.data ++ '\'' :: post) ∧ pre ≠ [] ∧
        p.data = d ++ '/' :: (nm.data ++ ['.', c1, c2]) ∧
        (d = [] ∨ ∃ d2, d = '/' :: d2) ∧ sLike c1 = true ∧ hLike c2 = true ∧
        nm.data.all (fun c => !(c == '/')) = true) ∧
    (classifyLine s = LineClass.commentOrBlank ↔ ignoreEntry s = true) ∧
    (classifyLine s = LineClass.managed ↔
      ignoreEntry s = false ∧ (entry_fullmatch s).isSome = true) ∧
    (classifyLine s = LineClass.foreign ↔
      ignoreEntry s = false ∧ entry_fullmatch s = none) := by
  refine ⟨?_, ?_, ?_, ?_, ?_⟩
  · constructor
    · intro h
      obtain ⟨pr, hpr⟩ := Option.isSome_iff_exists.mp h
      obtain ⟨p, nm⟩ := pr
      have h2 := entry_fullmatch_eq_some.mp hpr
      obtain ⟨hnl, pre, post, d, c1, c2, hcs, hpre, hp, hd, hc1, hc2, hno⟩ :=
        matchA_captures h2
      exact ⟨pre, p.data, post, hcs, hpre, ⟨d, nm.data, c1, c2, hp, hd, hc1, hc2⟩, hnl⟩
    · rintro ⟨pre, p, post, hcs, hpre, ⟨d, nmL, c1, c2, hp, hd, hc1, hc2⟩, hnl⟩
      obtain ⟨pr, n, hm⟩ := matchA_of_shape hcs hpre hp hd hc1 hc2 hnl
      unfold entry_fullmatch
      rw [hm]
      rfl
  · intro p nm h
    have h2 := entry_fullmatch_eq_some.mp h
    obtain ⟨hnl, pre, post, d, c1, c2, hcs, hpre, hp, hd, hc1, hc2, hno⟩ :=
      matchA_captures h2
    exact ⟨pre, post, d, c1, c2, hcs, hpre, hp, hd, hc1, hc2, hno⟩
  · by_cases hig : ignoreEntry s
    · simp [classifyLine, hig]
    · cases hm : entry_fullmatch s <;> simp [classifyLine, hig, hm]
  · by_cases hig : ignoreEntry s
    · simp [classifyLine, hig]
    · cases hm : entry_fullmatch s <;> simp [classifyLine, hig, hm]
  · by_cases hig : ignoreEntry s
    · simp [classifyLine, hig]
    · cases hm : entry_fullmatch s <;> simp [classifyLine, hig, hm]

/-- Witness for C4 at a concrete input. -/
theorem theorem_C4_witness :
    ∃ pre post d c1 c2,
      ("0 \x27/a/b.sh\x27").data =
        pre ++ '\'' :: (("/a/b.sh").data ++ '\'' :: post) ∧ pre ≠ [] ∧
      ("/a/b.sh").data = d ++ '/' :: (("b").data ++ ['.', c1, c2]) ∧
      (d = [] ∨ ∃ d2, d = '/' :: d2) ∧ sLike c1 = true ∧ hLike c2 = true ∧
      ("b").data.all (fun c => !(c == '/')) = true :=
  (theorem_C4 "0 \x27/a/b.sh\x27").2.1 "/a/b.sh" "b" (by decide)

/-- Counterexample to C4 as stated: with an empty `<anything>` before the
opening quote the claimed shape holds, but the pattern (which starts with
`.+?`) does not match. -/
theorem counterexample_C4 :
    claimedEntryShape "\x27/a.sh\x27" ∧ entry_fullmatch "\x27/a.sh\x27" = none := by
  constructor
  · exact ⟨[], ("/a.sh").data, [], by decide,
      ⟨[], ['a'], 's', 'h', by decide, Or.inl rfl, by decide, by decide⟩, by decide⟩
  · decide

end CronExt

namespace CronExt

/-- C5 (amended): installing the same selection twice yields the same store
content as one install, provided the starting content has an END marker line
whenever it has a BEGIN marker line (when a BEGIN line exists with no END
line, the locator fails, a fresh section is appended, and the second run —
now finding the stray BEGIN and the new END — produces different content). -/
theorem theorem_C5 (newEntries lines : List String)
    (h : hasEndU lines = true ∨ hasBeginU lines = false) :
    installEntries newEntries (installEntries newEntries lines) =
      installEntries newEntries lines :=
  installEntries_twice newEntries lines h

/-- Witness for C5 at concrete inputs. -/
theorem theorem_C5_witness :
    installEntries ["0 \x27/p/x.sh\x27"] (installEntries ["0 \x27/p/x.sh\x27"] ["z"]) =
      installEntries ["0 \x27/p/x.sh\x27"] ["z"] :=
  theorem_C5 ["0 \x27/p/x.sh\x27"] ["z"] (Or.inr (by decide))

/-- Counterexample to C5 as stated: on content holding a BEGIN marker but no
END marker, a second identical install changes the stored text again. -/
theorem counterexample_C5 :
    installEntries [] (installEntries [] ["#-BEGIN MELTANO CRONTAB SECTION-"]) ≠
      installEntries [] ["#-BEGIN MELTANO CRONTAB SECTION-"] := by
  decide

/-- C6: default uninstall (no ids, no `--all`) on a managed store keeps
exactly the section entries whose pattern match fails or whose name is not in
the schedule snapshot, removes every entry whose name is known, collects for
deletion exactly the paths of the removed known-named entries, and never adds
entries. -/
theorem theorem_C6 (known lines : List String)
    (hsec : hasEndU lines = true ∨ hasBeginU lines = false) :
    entriesOf ((uninstallEntries (uninstallPredicate [] false known) lines).1) =
      (entriesOf lines).filter (keepEntry (uninstallPredicate [] false known)) ∧
    (∀ e ∈ entriesOf lines, ∀ pn : String × String, cron_entry_fullmatch e = some pn →
      known.contains pn.2 = false →
      e ∈ entriesOf ((uninstallEntries (uninstallPredicate [] false known) lines).1)) ∧
    (∀ e ∈ entriesOf lines, ∀ pn : String × String, cron_entry_fullmatch e = some pn →
      known.contains pn.2 = true →
      e ∉ entriesOf ((uninstallEntries (uninstallPredicate [] false known) lines).1) ∧
      pn.1 ∈ (uninstallEntries (uninstallPredicate [] false known) lines).2) ∧
    (∀ pth ∈ (uninstallEntries (uninstallPredicate [] false known) lines).2,
      ∃ e ∈ entriesOf lines, ∃ pn : String × String,
        cron_entry_fullmatch e = some pn ∧ pn.1 = pth ∧ known.contains pn.2 = true) ∧
    (∀ e ∈ entriesOf ((uninstallEntries (uninstallPredicate [] false known) lines).1),
      e ∈ entriesOf lines) := by
  have hE := uninstall_entriesOf (uninstallPredicate [] false known) lines hsec
  refine ⟨hE, ?_, ?_, ?_, ?_⟩
  · intro e he pn hpn hc
    rw [hE]
    refine List.mem_filter.mpr ⟨he, ?_⟩
    refine keepEntry_true_iff.mpr ⟨pn, hpn, ?_⟩
    rw [uninstallPredicate_default]
    exact hc
  · intro e he pn hpn hc
    constructor
    · intro hmem
      rw [hE] at hmem
      obtain ⟨pn2, hpn2, hfalse⟩ := keepEntry_true_iff.mp (List.mem_filter.mp hmem).2
      rw [hpn] at hpn2
      cases Option.some_inj.mp hpn2
      have hcf : known.contains pn.2 = false := hfalse
      rw [hc] at hcf
      cases hcf
    · rw [uninstall_snd]
      refine List.mem_filterMap.mpr ⟨e, he, ?_⟩
      rw [hpn]
      rw [uninstallPredicate_default]
      dsimp only []
      rw [hc]
      rfl
  · intro pth hpth
    rw [uninstall_snd] at hpth
    obtain ⟨e, he, heq⟩ := List.mem_filterMap.mp hpth
    cases hm : cron_entry_fullmatch e with
    | none =>
      rw [hm] at heq
      cases heq
    | some pn =>
      rw [hm] at heq
      rw [uninstallPredicate_default] at heq
      dsimp only [] at heq
      cases hc : known.contains pn.2 with
      | false =>
        rw [hc] at heq
        simp at heq
      | true =>
        rw [hc] at heq
        simp only [if_true] at heq
        exact ⟨e, he, pn, hm, Option.some_inj.mp heq, hc⟩
  · intro e hmem
    rw [hE] at hmem
    exact (List.mem_filter.mp hmem).1

/-- Witness for C6 at concrete inputs: the known-named entry is removed, the
orphaned one kept. -/
theorem theorem_C6_witness :
    entriesOf ((uninstallEntries (uninstallPredicate [] false ["a"])
        ["#-BEGIN MELTANO CRONTAB SECTION-", "0 \x27/p/a.sh\x27", "1 \x27/p/o.sh\x27",
          "#-END MELTANO CRONTAB SECTION-"]).1) =
      (entriesOf ["#-BEGIN MELTANO CRONTAB SECTION-", "0 \x27/p/a.sh\x27",
          "1 \x27/p/o.sh\x27", "#-END MELTANO CRONTAB SECTION-"]).filter
        (keepEntry (uninstallPredicate [] false ["a"])) :=
  (theorem_C6 ["a"] ["#-BEGIN MELTANO CRONTAB SECTION-", "0 \x27/p/a.sh\x27",
      "1 \x27/p/o.sh\x27", "#-END MELTANO CRONTAB SECTION-"] (Or.inl (by decide))).1

end CronExt

namespace CronExt

/-- C7: install always performs the store mutation (installing every
resolvable selected schedule), and only afterwards reports an error naming
exactly the selected ids absent from the schedule snapshot, when the
selection was non-empty and such ids exist; an id is unavailable iff it was
selected and no snapshot schedule bears its name, and every selected id that
does resolve has its generated entry among the new entries. -/
theorem theorem_C7 (dir : String) (schedules : List Schedule) (ids : List String)
    (lines : List String) :
    (installOp dir schedules ids lines).1 =
      installEntries (newEntriesFor dir schedules ids) lines ∧
    ((installOp dir schedules ids lines).2 = none ↔
      ids = [] ∨ unavailableIds ids schedules = []) ∧
    (∀ us, (installOp dir schedules ids lines).2 = some us →
      us = unavailableIds ids schedules ∧ ids ≠ [] ∧ us ≠ []) ∧
    (∀ x, x ∈ unavailableIds ids schedules ↔
      x ∈ ids ∧ ¬∃ sch ∈ schedules, sch.name = x) ∧
    (∀ x ∈ ids, (∃ sch ∈ schedules, sch.name = x) →
      ∃ sch ∈ schedules, sch.name = x ∧
        scheduleEntry dir sch ∈ newEntriesFor dir schedules ids) := by
  refine ⟨rfl, ?_, ?_, ?_, ?_⟩
  · by_cases h1 : ids = []
    · subst h1
      simp [installOp]
    · by_cases h2 : unavailableIds ids schedules = []
      · simp [installOp, h1, h2]
      · simp [installOp, h1, h2]
  · intro us hus
    by_cases h1 : ids = []
    · subst h1
      simp [installOp] at hus
    · by_cases h2 : unavailableIds ids schedules = []
      · simp [installOp, h1, h2] at hus
      · simp [installOp, h1, h2] at hus
        exact ⟨hus.symm, h1, by rw [hus] at h2; exact h2⟩
  · intro x
    simp only [unavailableIds, knownIdsOf, List.mem_filter, Bool.not_eq_true']
    constructor
    · rintro ⟨hx, hc⟩
      refine ⟨hx, ?_⟩
      rintro ⟨sch, hs, hn⟩
      have : x ∈ schedules.map Schedule.name :=
        List.mem_map.mpr ⟨sch, hs, hn⟩
      have hc2 : (schedules.map Schedule.name).contains x = true := List.elem_iff.mpr this
      rw [hc] at hc2
      cases hc2
    · rintro ⟨hx, hne⟩
      refine ⟨hx, ?_⟩
      by_cases hc : (schedules.map Schedule.name).contains x = true
      · obtain ⟨sch, hs, hn⟩ := List.mem_map.mp (List.elem_iff.mp hc)
        exact absurd ⟨sch, hs, hn⟩ hne
      · simpa using hc
  · intro x hx hex
    obtain ⟨sch, hs, hn⟩ := hex
    refine ⟨sch, hs, hn, ?_⟩
    have hne : ids.isEmpty = false := by
      cases ids with
      | nil => cases hx
      | cons a t => rfl
    refine List.mem_map_of_mem _ (List.mem_filter.mpr ⟨hs, ?_⟩)
    simp only [installPredicate, hne, Bool.false_eq_true, if_false]
    rw [hn]
    exact List.elem_iff.mpr hx

end CronExt

namespace CronExt

/-- Witness for C7 at concrete inputs. -/
theorem theorem_C7_witness :
    ∃ sch ∈ [Schedule.mk "a" "0"], sch.name = "a" ∧
      scheduleEntry "d" sch ∈ newEntriesFor "d" [Schedule.mk "a" "0"] ["a"] :=
  (theorem_C7 "d" [Schedule.mk "a" "0"] ["a"] []).2.2.2.2 "a" (by decide)
    ⟨Schedule.mk "a" "0", by decide, rfl⟩

/-- C8: uninstalling against a store whose `is_managed` capability is false
fails with the pinned error before any mutation: the store raises, the CLI
reports exit code 1, and the system state is returned unchanged. -/
theorem theorem_C8 (kind : StoreKind) (pred : String → Bool) (st : SysState)
    (h : isManaged kind = false) :
    uninstallViaStore kind pred st =
      Except.error "Cannot uninstall from an unmanaged cron entry store" ∧
    uninstallCLI kind pred st = (1, st) := by
  have h2 : uninstallViaStore kind pred st =
      Except.error "Cannot uninstall from an unmanaged cron entry store" := by
    unfold uninstallViaStore
    rw [h]
    rfl
  refine ⟨h2, ?_⟩
  unfold uninstallCLI
  rw [h2]

/-- Witness for C8 at concrete inputs. -/
theorem theorem_C8_witness :
    uninstallViaStore StoreKind.stdout (fun _ => true) (SysState.mk ["x"] ["f"]) =
      Except.error "Cannot uninstall from an unmanaged cron entry store" ∧
    uninstallCLI StoreKind.stdout (fun _ => true) (SysState.mk ["x"] ["f"]) =
      (1, SysState.mk ["x"] ["f"]) :=
  theorem_C8 StoreKind.stdout (fun _ => true) (SysState.mk ["x"] ["f"]) rfl

/-- C9 (amended): a line is a keyed BEGIN/END marker iff it decomposes as
optional whitespace, `#`, whitespace, a non-empty dash run, whitespace, the
exact-case phrase `BEGIN MELTANO CRONTAB SECTION` (resp. `END ...`), one
space, the parenthesized project id matched exactly, whitespace, a non-empty
dash run, and trailing whitespace; the templates are compiled without
`re.IGNORECASE`, so the phrase is case-sensitive, while whitespace amounts
and dash-run lengths remain free. -/
theorem theorem_C9 (pid line : String) :
    (sectionMarkerK "BEGIN" pid line = true ↔ specMarkerK "BEGIN" pid line) ∧
    (sectionMarkerK "END" pid line = true ↔ specMarkerK "END" pid line) :=
  ⟨sectionMarkerK_iff "BEGIN" pid line
      ⟨'B', ("EGIN MELTANO CRONTAB SECTION").data, by decide, by decide, by decide⟩,
    sectionMarkerK_iff "END" pid line
      ⟨'E', ("ND MELTANO CRONTAB SECTION").data, by decide, by decide, by decide⟩⟩

/-- Witness for C9 at a concrete input. -/
theorem theorem_C9_witness :
    specMarkerK "BEGIN" "p" "#-BEGIN MELTANO CRONTAB SECTION (p)-" :=
  (theorem_C9 "p" "#-BEGIN MELTANO CRONTAB SECTION (p)-").1.mp (by decide)

/-- Counterexample to C9 as stated: a lower-case phrase satisfies the claimed
case-insensitive shape but the marker matcher rejects the line. -/
theorem counterexample_C9 :
    claimedMarkerCI "BEGIN" "p" "#-begin meltano crontab section (p)-" ∧
    sectionMarkerK "BEGIN" "p" "#-begin meltano crontab section (p)-" = false := by
  constructor
  · refine ⟨[], [], ['-'], [], ("begin meltano crontab section").data, ['p'], [], ['-'], [],
      by decide, ?_, ?_, ?_, ?_, ?_, by decide, by decide, ?_, ?_, ?_⟩
    · intro c hc
      cases hc
    · intro c hc
      cases hc
    · refine ⟨by decide, fun c hc => ?_⟩
      rw [List.mem_singleton] at hc
      rw [hc]
    · intro c hc
      cases hc
    · unfold lowerEq
      decide
    · intro c hc
      cases hc
    · refine ⟨by decide, fun c hc => ?_⟩
      rw [List.mem_singleton] at hc
      rw [hc]
    · intro c hc
      cases hc
  · decide

/-- C10 (amended): the two patterns are not equivalent, but one refines the
other: whenever `entry.py`'s pattern matches, `extension.py`'s pattern also
matches with the identical `name` capture and a `path` capture of which the
former's `path` is a suffix. -/
theorem theorem_C10 (s p nm : String) (h : entry_fullmatch s = some (p, nm)) :
    ∃ p2 : String, cron_entry_fullmatch s = some (p2, nm) ∧ p.data <:+ p2.data := by
  rw [entry_fullmatch_eq_some] at h
  obtain ⟨p2L, hB, hsuf⟩ := matchB_of_matchA h
  refine ⟨String.mk p2L, ?_, hsuf⟩
  rw [cron_entry_fullmatch_eq_some]
  exact hB

/-- Witness for C10 at a concrete input. -/
theorem theorem_C10_witness :
    ∃ p2 : String, cron_entry_fullmatch "0 \x27/p/x.sh\x27" = some (p2, "x") ∧
      ("/p/x.sh").data <:+ p2.data :=
  theorem_C10 "0 \x27/p/x.sh\x27" "/p/x.sh" "x" (by decide)

/-- Counterexample to C10 as stated: the `extension.py` pattern accepts a
relative wrapper path that the `entry.py` pattern rejects, and on a line with
several quotes both match with the same name but different path captures. -/
theorem counterexample_C10 :
    cron_entry_fullmatch "x \x27a/b.sh\x27" = some ("a/b.sh", "b") ∧
    entry_fullmatch "x \x27a/b.sh\x27" = none ∧
    entry_fullmatch "a\x27b\x27 c\x27/p/x.sh\x27" = some ("/p/x.sh", "x") ∧
    cron_entry_fullmatch "a\x27b\x27 c\x27/p/x.sh\x27" =
      some ("b\x27 c\x27/p/x.sh", "x") := by
  refine ⟨by decide, by decide, by decide, by decide⟩

end CronExt
